import Mathlib

/-!
Verification of the slot-map ("dense map") and memory-manager core of the
repository against its natural-language specification.

The definitions in the `SlotMap` namespace are a shallow embedding of
`bf::DenseMap` from `src/c-backend/bf/data_structures/bifrost_dense_map.hpp`
and of `bf::DenseMapHandle` from `bifrost_dense_map_handle.hpp`.
The backing `bf::Array` is a plain growable array (append at the end,
`pop` removes the last element, `clear` empties), so it is modelled by `List`.
Machine integers (`uint32_t` ids, `uint16_t` indices) are modelled by `Nat`
with explicit reductions `% 2^32` and `% 2^16` where the C++ code can wrap;
bitwise `x & 0xFFFF` is written `x % 65536`.
Unchecked indexing (`operator[]`) is modelled by `List.getD` with a default,
and the fallible `find` by an `Option`-returning `find?`.
-/

namespace SlotMap

/-- `dense_map::INDEX_MASK = numeric_limits<uint16_t>::max() = 0xFFFF`. -/
def INDEX_MASK : Nat := 65535

/-- `dense_map::ONE_PLUS_INDEX_TYPE_MAX = 1 << 16 = 0x1_0000`. -/
def ONE_PLUS_INDEX_TYPE_MAX : Nat := 65536

/-- One plus the largest `IDType` (`uint32_t`) value: ids live below `2^32`. -/
def ID_MOD : Nat := 4294967296

/-- `dense_map::Index`: a freelist node embedded in the sparse array.
`id` is the unique id (generation in the high 16 bits, home position in the
low 16 bits), `index` is the position of the object in the dense array
(or `INDEX_MASK` when the slot is free), `next` chains free slots. -/
structure Index where
  id : Nat
  index : Nat
  next : Nat
  deriving DecidableEq

instance : Inhabited Index := ⟨⟨0, 0, 0⟩⟩

/-- `DenseMap<TObject>::Proxy`: a dense-array record `{data, id}`. -/
structure Proxy (α : Type) where
  data : α
  id : Nat
  deriving DecidableEq

instance [Inhabited α] : Inhabited (Proxy α) := ⟨⟨default, 0⟩⟩

/-- `bf::DenseMapHandle<T>`: a strictly typed wrapper around a `uint32_t`. -/
structure DenseMapHandle where
  id_index : Nat
  deriving DecidableEq

/-- The `DenseMapHandle` constructor; its default argument is
`dense_map::INDEX_MASK` (note: the 16-bit mask `0xFFFF`, not `0xFFFF_FFFF`). -/
def DenseMapHandle.make (id : Nat := INDEX_MASK) : DenseMapHandle := ⟨id⟩

/-- `DenseMapHandle::isValid()`: `id_index != dense_map::INDEX_MASK`. -/
def DenseMapHandle.isValid (h : DenseMapHandle) : Bool :=
  h.id_index != INDEX_MASK

/-- `bf::DenseMap<TObject>`: dense object array, sparse index array and the
head of the free-slot chain (`INDEX_MASK` when no slot is free). -/
structure DenseMap (α : Type) where
  denseArray : List (Proxy α)
  sparseIndices : List Index
  nextSparse : Nat
  deriving DecidableEq

/-- A freshly constructed `DenseMap` (the C++ constructor). -/
def empty (α : Type) : DenseMap α := ⟨[], [], INDEX_MASK⟩

/-- Sparse-array access `m_SparseIndices[s]` (unchecked in C++). -/
def sp (m : DenseMap α) (s : Nat) : Index := m.sparseIndices.getD s default

/-- Dense-array access `m_DenseArray[i]` (unchecked in C++). -/
def dn [Inhabited α] (m : DenseMap α) (i : Nat) : Proxy α :=
  m.denseArray.getD i default

/-- `DenseMap::getNextIndex`: pop the head of the free chain if there is one,
otherwise grow the sparse array by one slot `Index(id = length, INDEX_MASK)`
(whose constructor also sets `next = INDEX_MASK`).  Returns the position of
the slot handed out together with the updated map. -/
def getNextIndex (m : DenseMap α) : Nat × DenseMap α :=
  if m.nextSparse ≠ INDEX_MASK then
    (m.nextSparse, { m with nextSparse := (sp m m.nextSparse).next })
  else
    (m.sparseIndices.length,
     { m with sparseIndices :=
         m.sparseIndices ++ [⟨m.sparseIndices.length % ID_MOD, INDEX_MASK, INDEX_MASK⟩] })

/-- `DenseMap::add`: grab a slot, bump its id by `ONE_PLUS_INDEX_TYPE_MAX`
(32-bit wrap-around addition), point it at the new end of the dense array
(`IndexType` cast of the size), append the proxy, and return the new id. -/
def add (m : DenseMap α) (v : α) : Nat × DenseMap α :=
  let r := getNextIndex m
  let m1 := r.2
  let in0 := m1.sparseIndices.getD r.1 default
  let newId := (in0.id + ONE_PLUS_INDEX_TYPE_MAX) % ID_MOD
  (newId,
   { m1 with
       sparseIndices :=
         m1.sparseIndices.set r.1 ⟨newId, m1.denseArray.length % 65536, in0.next⟩,
       denseArray := m1.denseArray ++ [⟨v, newId⟩] })

/-- `DenseMap::has`: decode the slot from the low 16 bits, bounds-check, and
confirm the stored id matches and the slot is occupied. -/
def has (m : DenseMap α) (h : Nat) : Bool :=
  let index := h % 65536
  if index < m.sparseIndices.length then
    let in0 := m.sparseIndices.getD index default
    in0.id == h && in0.index != INDEX_MASK
  else
    false

/-- `DenseMap::find` (Option-valued: the C++ code indexes unchecked under the
precondition `has`, so out-of-bounds accesses become `none`). -/
def find? (m : DenseMap α) (h : Nat) : Option α :=
  match m.sparseIndices.get? (h % 65536) with
  | none => none
  | some in0 =>
    match m.denseArray.get? in0.index with
    | none => none
    | some obj => some obj.data

/-- `DenseMap::remove`: swap the last dense entry into the removed entry's
place (when they differ), repair the moved entry's sparse index, pop the
dense array, invalidate the slot and push it onto the free chain. -/
def remove [Inhabited α] (m : DenseMap α) (h : Nat) : DenseMap α :=
  let index := h % 65536
  let in0 := m.sparseIndices.getD index default
  let backIdx := m.denseArray.length - 1
  let back := m.denseArray.getD backIdx default
  let dense1 :=
    if in0.index ≠ backIdx then m.denseArray.set in0.index back else m.denseArray
  let sparse1 :=
    if in0.index ≠ backIdx then
      m.sparseIndices.set (back.id % 65536)
        { m.sparseIndices.getD (back.id % 65536) default with index := in0.index }
    else
      m.sparseIndices
  { denseArray := dense1.dropLast,
    sparseIndices := sparse1.set index ⟨in0.id, INDEX_MASK, m.nextSparse⟩,
    nextSparse := index }

/-- `DenseMap::clear`: empty both arrays and reset the free chain. -/
def clear (m : DenseMap α) : DenseMap α :=
  let _ := m
  ⟨[], [], INDEX_MASK⟩

/-- One operation of the `DenseMap` public mutation interface. -/
inductive Op (α : Type) where
  | add (v : α)
  | remove (h : Nat)
  | clear
  deriving DecidableEq

/-- Apply one operation.  The C++ preconditions (`assert`s) are modelled as
guards: `add` requires the dense size to be below `INDEX_MASK` and `remove`
requires `has`; an operation whose precondition fails leaves the map
unchanged (in C++ it would be a contract violation). -/
def applyOp [Inhabited α] (m : DenseMap α) : Op α → DenseMap α
  | .add v => if m.denseArray.length < INDEX_MASK then (add m v).2 else m
  | .remove h => if has m h then remove m h else m
  | .clear => clear m

/-- Run a list of operations from a given state, in list order. -/
def runFrom [Inhabited α] (m : DenseMap α) (ops : List (Op α)) : DenseMap α :=
  ops.foldl applyOp m

/-- Run a list of operations from a fresh map. -/
def run [Inhabited α] (ops : List (Op α)) : DenseMap α :=
  runFrom (empty α) ops

/-- Number of `add` operations in a list of operations. -/
def numAdds (ops : List (Op α)) : Nat :=
  ops.countP fun op => match op with | .add _ => true | _ => false

/-- `true` when the list contains no `clear` operation. -/
def noClear (ops : List (Op α)) : Bool :=
  ops.all fun op => match op with | .clear => false | _ => true

/-- Ghost log used to state the round-trip property: alongside the concrete
map we keep, for every currently-valid handle, the value that was passed to
the `add` that issued it.  `add` prepends `(handle, value)`, `remove` deletes
the handle's entry, `clear` empties the log. -/
def stepBoth [Inhabited α] (p : DenseMap α × List (Nat × α)) (op : Op α) :
    DenseMap α × List (Nat × α) :=
  match op with
  | .add v =>
    if p.1.denseArray.length < INDEX_MASK then
      ((add p.1 v).2, ((add p.1 v).1, v) :: p.2)
    else p
  | .remove h =>
    if has p.1 h then (remove p.1 h, p.2.filter fun q => q.1 != h) else p
  | .clear => (clear p.1, [])

/-- Run a list of operations from a fresh map, together with the ghost log. -/
def runBoth [Inhabited α] (ops : List (Op α)) : DenseMap α × List (Nat × α) :=
  ops.foldl stepBoth (empty α, [])

/-! ### List access helpers -/

theorem getD_set_self {γ : Type} {l : List γ} {n : Nat} (a d : γ)
    (h : n < l.length) : (l.set n a).getD n d = a := by
  simp [List.getD_eq_getElem?_getD, List.getElem?_set_self', List.getElem?_eq_getElem h]

theorem getD_set_ne {γ : Type} {l : List γ} {m n : Nat} (a d : γ)
    (h : m ≠ n) : (l.set m a).getD n d = l.getD n d := by
  simp [List.getD_eq_getElem?_getD, List.getElem?_set_ne h]

theorem getD_append_lt {γ : Type} {l l2 : List γ} {n : Nat} (d : γ)
    (h : n < l.length) : (l ++ l2).getD n d = l.getD n d := by
  simp [List.getD_eq_getElem?_getD, List.getElem?_append, h]

theorem getD_append_len {γ : Type} (l : List γ) (a d : γ) :
    (l ++ [a]).getD l.length d = a := by
  simp [List.getD_eq_getElem?_getD]

theorem getD_dropLast {γ : Type} {l : List γ} {n : Nat} (d : γ)
    (h : n + 1 < l.length) : l.dropLast.getD n d = l.getD n d := by
  simp only [List.getD_eq_getElem?_getD, List.getElem?_dropLast]
  rw [if_pos (by omega)]

theorem getD_oob {γ : Type} {l : List γ} {n : Nat} (d : γ)
    (h : l.length ≤ n) : l.getD n d = d := by
  rw [List.getD_eq_getElem?_getD, List.getElem?_eq_none h]; rfl

theorem get?_eq_getD {γ : Type} {l : List γ} {n : Nat} (d : γ)
    (h : n < l.length) : l.get? n = some (l.getD n d) := by
  simp [List.getD_eq_getElem?_getD, List.get?_eq_getElem?, List.getElem?_eq_getElem h]

theorem set_append_len {γ : Type} (l : List γ) (a b : γ) :
    (l ++ [a]).set l.length b = l ++ [b] := by
  simp [List.set_append]

/-! ### Branch shapes of `add` -/

/-- `add` when the free chain is nonempty: the slot `m.nextSparse` is reused,
its id is bumped by `0x1_0000` (mod `2^32`), and it now points at the new last
dense position. -/
theorem add_reuse [Inhabited α] (m : DenseMap α) (v : α)
    (hns : m.nextSparse ≠ INDEX_MASK) :
    add m v = (((sp m m.nextSparse).id + 65536) % ID_MOD,
      ⟨m.denseArray ++ [⟨v, ((sp m m.nextSparse).id + 65536) % ID_MOD⟩],
       m.sparseIndices.set m.nextSparse
         ⟨((sp m m.nextSparse).id + 65536) % ID_MOD,
          m.denseArray.length % 65536, (sp m m.nextSparse).next⟩,
       (sp m m.nextSparse).next⟩) := by
  simp [add, getNextIndex, hns, sp, ONE_PLUS_INDEX_TYPE_MAX]

/-- `add` when the free chain is empty: a fresh slot is appended at position
`m.sparseIndices.length` with baseline id equal to that position, which the
bump immediately lifts to generation one. -/
theorem add_fresh [Inhabited α] (m : DenseMap α) (v : α)
    (hns : m.nextSparse = INDEX_MASK) :
    add m v = ((m.sparseIndices.length % ID_MOD + 65536) % ID_MOD,
      ⟨m.denseArray ++ [⟨v, (m.sparseIndices.length % ID_MOD + 65536) % ID_MOD⟩],
       m.sparseIndices ++
         [⟨(m.sparseIndices.length % ID_MOD + 65536) % ID_MOD,
           m.denseArray.length % 65536, INDEX_MASK⟩],
       INDEX_MASK⟩) := by
  simp [add, getNextIndex, hns, ONE_PLUS_INDEX_TYPE_MAX,
    getD_append_len, set_append_len]

/-! ### The free chain and the well-formedness invariant -/

/-- The free chain: starting from head `n`, the chain visits the listed slot
positions (each a free slot, linked through `next`) and terminates at
`INDEX_MASK`. -/
inductive FreeChain (sparse : List Index) : Nat → List Nat → Prop where
  | nil : FreeChain sparse INDEX_MASK []
  | cons {s : Nat} {rest : List Nat}
      (hlt : s < sparse.length)
      (hfree : (sparse.getD s default).index = INDEX_MASK)
      (htail : FreeChain sparse (sparse.getD s default).next rest) :
      FreeChain sparse s (s :: rest)

theorem freeChain_mask {sparse : List Index} {fl : List Nat}
    (hle : sparse.length ≤ INDEX_MASK) (h : FreeChain sparse INDEX_MASK fl) :
    fl = [] := by
  cases h with
  | nil => rfl
  | cons hlt _ _ => omega

theorem freeChain_head {sparse : List Index} {n : Nat} {fl : List Nat}
    (h : FreeChain sparse n fl) (hn : n ≠ INDEX_MASK) :
    ∃ rest, fl = n :: rest ∧ n < sparse.length ∧
      (sparse.getD n default).index = INDEX_MASK ∧
      FreeChain sparse (sparse.getD n default).next rest := by
  cases h with
  | nil => exact absurd rfl hn
  | cons hlt hfree htail => exact ⟨_, rfl, hlt, hfree, htail⟩

theorem freeChain_mem {sparse : List Index} {n : Nat} {fl : List Nat}
    (h : FreeChain sparse n fl) :
    ∀ s ∈ fl, s < sparse.length ∧ (sparse.getD s default).index = INDEX_MASK := by
  induction h with
  | nil => intro s hs; cases hs
  | cons hlt hfree _ ih =>
    intro s hs
    cases hs with
    | head => exact ⟨hlt, hfree⟩
    | tail _ hs => exact ih s hs

/-- A free chain survives any modification that does not shrink the sparse
array below the chained positions and does not touch the chained slots. -/
theorem freeChain_congr {sparse sparse2 : List Index} {n : Nat} {fl : List Nat}
    (h : FreeChain sparse n fl)
    (heq : ∀ s ∈ fl, s < sparse2.length ∧
      sparse2.getD s default = sparse.getD s default) :
    FreeChain sparse2 n fl := by
  induction h with
  | nil => exact .nil
  | cons hlt hfree htail ih =>
    have hh := heq _ (List.mem_cons_self ..)
    refine .cons hh.1 ?_ ?_
    · rw [hh.2]; exact hfree
    · rw [hh.2]
      exact ih fun s hs => heq s (List.mem_cons_of_mem _ hs)

/-- Well-formedness of a `DenseMap` state.  Every reachable state satisfies
this invariant:
* both arrays stay below the 16-bit index space;
* every sparse slot's id is a 32-bit value whose low 16 bits are the slot's
  own position;
* every occupied slot points into the dense array at an entry carrying its id;
* every dense entry is pointed back at by the slot named in its id;
* the free chain is a duplicate-free list of exactly the free slots. -/
structure WF [Inhabited α] (m : DenseMap α) : Prop where
  sparse_le : m.sparseIndices.length ≤ INDEX_MASK
  dense_le : m.denseArray.length ≤ INDEX_MASK
  id_lt : ∀ s, s < m.sparseIndices.length → (sp m s).id < ID_MOD
  id_low : ∀ s, s < m.sparseIndices.length → (sp m s).id % 65536 = s
  occ : ∀ s, s < m.sparseIndices.length → (sp m s).index ≠ INDEX_MASK →
    (sp m s).index < m.denseArray.length ∧ (dn m (sp m s).index).id = (sp m s).id
  dense_inv : ∀ i, i < m.denseArray.length →
    (dn m i).id % 65536 < m.sparseIndices.length ∧
    (sp m ((dn m i).id % 65536)).index = i
  free_inv : ∃ fl, FreeChain m.sparseIndices m.nextSparse fl ∧ fl.Nodup ∧
    ∀ s, s < m.sparseIndices.length → ((sp m s).index = INDEX_MASK ↔ s ∈ fl)

theorem WF.empty (α : Type) [Inhabited α] : WF (empty α) := by
  refine ⟨?_, ?_, ?_, ?_, ?_, ?_, ⟨[], .nil, List.nodup_nil, ?_⟩⟩ <;>
    simp [SlotMap.empty, INDEX_MASK, sp, dn]

theorem WF.clear [Inhabited α] (m : DenseMap α) : WF (clear m) := by
  refine ⟨?_, ?_, ?_, ?_, ?_, ?_, ⟨[], .nil, List.nodup_nil, ?_⟩⟩ <;>
    simp [SlotMap.clear, INDEX_MASK, sp, dn]

/-- In a well-formed state, the id stored in a dense entry identifies an
occupied sparse slot carrying the same id. -/
theorem WF.dense_id [Inhabited α] {m : DenseMap α} (wf : WF m) {i : Nat}
    (hi : i < m.denseArray.length) :
    (sp m ((dn m i).id % 65536)).id = (dn m i).id ∧ (dn m i).id < ID_MOD := by
  obtain ⟨hs, hidx⟩ := wf.dense_inv i hi
  have hne : (sp m ((dn m i).id % 65536)).index ≠ INDEX_MASK := by
    rw [hidx]
    have := wf.dense_le
    unfold INDEX_MASK at *
    omega
  obtain ⟨_, hid⟩ := wf.occ _ hs hne
  rw [hidx] at hid
  exact ⟨hid.symm, hid ▸ wf.id_lt _ hs⟩

/-- Two occupied slots pointing at the same dense entry are the same slot. -/
theorem WF.occ_inj [Inhabited α] {m : DenseMap α} (wf : WF m) {s t : Nat}
    (hs : s < m.sparseIndices.length) (ht : t < m.sparseIndices.length)
    (hso : (sp m s).index ≠ INDEX_MASK) (hto : (sp m t).index ≠ INDEX_MASK)
    (heq : (sp m s).index = (sp m t).index) : s = t := by
  obtain ⟨hsl, hsi⟩ := wf.occ s hs hso
  obtain ⟨htl, hti⟩ := wf.occ t ht hto
  rw [heq] at hsi
  have : (sp m s).id = (sp m t).id := by rw [← hsi, hti]
  have hl := wf.id_low s hs
  have hl2 := wf.id_low t ht
  rw [← hl, ← hl2, this]

/-- Dense entries inject into sparse slots, so there are at least as many
sparse slots as dense entries. -/
theorem WF.dense_le_sparse [Inhabited α] {m : DenseMap α} (wf : WF m) :
    m.denseArray.length ≤ m.sparseIndices.length := by
  have := Finset.card_le_card_of_injOn (f := fun i => (dn m i).id % 65536)
    (s := Finset.range m.denseArray.length)
    (t := Finset.range m.sparseIndices.length)
    (fun i hi => by
      simp only [Finset.mem_range] at *
      exact (wf.dense_inv i hi).1)
    (fun i hi j hj hij => by
      simp only [Finset.coe_range, Set.mem_Iio] at hi hj
      simp only at hij
      have h1 := (wf.dense_inv i hi).2
      have h2 := (wf.dense_inv j hj).2
      rw [hij] at h1
      rw [h1] at h2
      exact h2)
  simpa using this

/-- When the free chain is empty every slot is occupied, so the sparse array
is no longer than the dense one. -/
theorem WF.fresh_bound [Inhabited α] {m : DenseMap α} (wf : WF m)
    (hns : m.nextSparse = INDEX_MASK) :
    m.sparseIndices.length ≤ m.denseArray.length := by
  obtain ⟨fl, hchain, -, hcov⟩ := wf.free_inv
  rw [hns] at hchain
  have hfl : fl = [] := freeChain_mask wf.sparse_le hchain
  subst hfl
  have hocc : ∀ s, s < m.sparseIndices.length → (sp m s).index ≠ INDEX_MASK := by
    intro s hs
    simpa using (hcov s hs).not.mpr (by simp)
  have := Finset.card_le_card_of_injOn (f := fun s => (sp m s).index)
    (s := Finset.range m.sparseIndices.length)
    (t := Finset.range m.denseArray.length)
    (fun s hs => by
      simp only [Finset.mem_range] at *
      exact (wf.occ s hs (hocc s hs)).1)
    (fun s hs t ht hst => by
      simp only [Finset.coe_range, Set.mem_Iio] at hs ht
      exact wf.occ_inj hs ht (hocc s hs) (hocc t ht) hst)
  simpa using this

/-! ### Characterizations of the observers -/

theorem has_iff (m : DenseMap α) (h : Nat) :
    has m h = true ↔
      h % 65536 < m.sparseIndices.length ∧ (sp m (h % 65536)).id = h ∧
        (sp m (h % 65536)).index ≠ INDEX_MASK := by
  unfold has sp
  simp only []
  split
  · simp_all [Bool.and_eq_true, beq_iff_eq, bne_iff_ne]
  · simp_all

theorem find?_of_has [Inhabited α] {m : DenseMap α} (wf : WF m) {h : Nat}
    (hh : has m h = true) :
    find? m h = some ((dn m ((sp m (h % 65536)).index)).data) := by
  obtain ⟨hlt, hid, hne⟩ := (has_iff m h).mp hh
  obtain ⟨hbound, -⟩ := wf.occ _ hlt hne
  unfold find?
  rw [get?_eq_getD default hlt]
  show (match m.denseArray.get? (sp m (h % 65536)).index with
    | none => none
    | some obj => some obj.data) = _
  rw [get?_eq_getD default hbound]
  rfl

/-! ### Preservation of well-formedness -/

theorem dvd_id_mod : (65536 : Nat) ∣ ID_MOD := ⟨65536, by norm_num [ID_MOD]⟩

theorem bump_mod_low (a : Nat) : (a + 65536) % ID_MOD % 65536 = a % 65536 := by
  rw [Nat.mod_mod_of_dvd _ dvd_id_mod, Nat.add_mod_right]

theorem bump_lt (a : Nat) : (a + 65536) % ID_MOD < ID_MOD :=
  Nat.mod_lt _ (by norm_num [ID_MOD])

theorem WF.add [Inhabited α] {m : DenseMap α} (wf : WF m) (v : α)
    (hlen : m.denseArray.length < INDEX_MASK) : WF (add m v).2 := by
  have hM : INDEX_MASK = 65535 := rfl
  obtain ⟨wsle, wdle, wilt, wilow, wocc, wdinv, wfree⟩ := wf
  have wf2 : WF m := ⟨wsle, wdle, wilt, wilow, wocc, wdinv, wfree⟩
  simp only [sp, dn] at wilt wilow wocc wdinv wfree
  by_cases hns : m.nextSparse = INDEX_MASK
  · -- fresh slot appended at position `slen`
    rw [add_fresh m v hns]
    set slen := m.sparseIndices.length with hslen
    set dlen := m.denseArray.length with hdlen
    have hsd : slen ≤ dlen := wf2.fresh_bound hns
    have hs65 : slen < 65535 := by omega
    have hd65 : dlen < 65535 := by omega
    have hslm : slen % ID_MOD = slen := Nat.mod_eq_of_lt (by norm_num [ID_MOD]; omega)
    have hid : (slen % ID_MOD + 65536) % ID_MOD = slen + 65536 := by
      rw [hslm]; exact Nat.mod_eq_of_lt (by norm_num [ID_MOD]; omega)
    have hdm : dlen % 65536 = dlen := Nat.mod_eq_of_lt (by omega)
    -- with an empty free chain every old slot is occupied
    obtain ⟨fl0, hchain0, -, hcov0⟩ := wfree
    rw [hns] at hchain0
    have hfl0 : fl0 = [] := freeChain_mask wsle hchain0
    subst hfl0
    have hocc0 : ∀ s, s < slen →
        (m.sparseIndices.getD s default).index ≠ INDEX_MASK := fun s hs => by
      simpa using (hcov0 s hs).not.mpr (by simp)
    refine ⟨?_, ?_, ?_, ?_, ?_, ?_, ?_⟩
    · simpa using by omega
    · simpa using by omega
    · intro s hs
      simp only [sp, List.length_append, List.length_singleton] at hs ⊢
      rcases Nat.lt_or_ge s slen with h1 | h1
      · rw [getD_append_lt _ h1]; exact wilt s h1
      · have hseq : s = slen := by omega
        subst hseq
        rw [getD_append_len]
        simp only [hid]
        norm_num [ID_MOD]; omega
    · intro s hs
      simp only [sp, List.length_append, List.length_singleton] at hs ⊢
      rcases Nat.lt_or_ge s slen with h1 | h1
      · rw [getD_append_lt _ h1]; exact wilow s h1
      · have hseq : s = slen := by omega
        subst hseq
        rw [getD_append_len]
        simp only [hid, Nat.add_mod_right]
        omega
    · intro s hs hocc
      simp only [sp, dn, List.length_append, List.length_singleton] at hs hocc ⊢
      rcases Nat.lt_or_ge s slen with h1 | h1
      · rw [getD_append_lt _ h1] at hocc ⊢
        obtain ⟨hb, hidm⟩ := wocc s h1 hocc
        refine ⟨by omega, ?_⟩
        rw [getD_append_lt _ hb]
        exact hidm
      · have hseq : s = slen := by omega
        subst hseq
        rw [getD_append_len] at hocc ⊢
        simp only [hdm]
        exact ⟨by omega, by rw [getD_append_len]⟩
    · intro i hi
      simp only [sp, dn, List.length_append, List.length_singleton] at hi ⊢
      rcases Nat.lt_or_ge i dlen with h1 | h1
      · rw [getD_append_lt _ h1]
        obtain ⟨hb, hidx⟩ := wdinv i h1
        refine ⟨by omega, ?_⟩
        rw [getD_append_lt _ hb]
        exact hidx
      · have hieq : i = dlen := by omega
        subst hieq
        rw [getD_append_len]
        simp only [hid, Nat.add_mod_right, Nat.mod_eq_of_lt (show slen < 65536 by omega)]
        exact ⟨by omega, by rw [getD_append_len]; exact hdm⟩
    · refine ⟨[], .nil, List.nodup_nil, ?_⟩
      intro s hs
      simp only [sp, List.length_append, List.length_singleton] at hs ⊢
      simp only [List.not_mem_nil, iff_false]
      rcases Nat.lt_or_ge s slen with h1 | h1
      · rw [getD_append_lt _ h1]; exact hocc0 s h1
      · have hseq : s = slen := by omega
        subst hseq
        rw [getD_append_len]
        simp only [hdm]
        omega
  · -- slot `m.nextSparse` reused from the head of the free chain
    rw [add_reuse m v hns]
    simp only [sp]
    set n := m.nextSparse with hn
    set slen := m.sparseIndices.length with hslen
    set dlen := m.denseArray.length with hdlen
    obtain ⟨fl, hchain, hnodup, hcov⟩ := wfree
    obtain ⟨rest, hfl, hnlt, hnfree, hrest⟩ := freeChain_head hchain hns
    subst hfl
    have hnrest : n ∉ rest := (List.nodup_cons.mp hnodup).1
    have hd65 : dlen < 65535 := by omega
    have hdm : dlen % 65536 = dlen := Nat.mod_eq_of_lt (by omega)
    have hlow : ((m.sparseIndices.getD n default).id + 65536) % ID_MOD % 65536 = n := by
      rw [bump_mod_low]
      exact wilow n hnlt
    refine ⟨?_, ?_, ?_, ?_, ?_, ?_, ?_⟩
    · simpa using wsle
    · simpa using by omega
    · intro s hs
      simp only [sp, List.length_set] at hs ⊢
      rcases eq_or_ne n s with h1 | h1
      · subst h1
        rw [getD_set_self _ _ hnlt]
        exact bump_lt _
      · rw [getD_set_ne _ _ h1]
        exact wilt s hs
    · intro s hs
      simp only [sp, List.length_set] at hs ⊢
      rcases eq_or_ne n s with h1 | h1
      · subst h1
        rw [getD_set_self _ _ hnlt]
        exact hlow
      · rw [getD_set_ne _ _ h1]
        exact wilow s hs
    · intro s hs hocc
      simp only [sp, dn, List.length_set, List.length_append,
        List.length_singleton] at hs hocc ⊢
      rcases eq_or_ne n s with h1 | h1
      · subst h1
        rw [getD_set_self _ _ hnlt] at hocc ⊢
        simp only [hdm]
        exact ⟨by omega, by rw [getD_append_len]⟩
      · rw [getD_set_ne _ _ h1] at hocc ⊢
        obtain ⟨hb, hidm⟩ := wocc s hs hocc
        refine ⟨by omega, ?_⟩
        rw [getD_append_lt _ hb]
        exact hidm
    · intro i hi
      simp only [sp, dn, List.length_set, List.length_append,
        List.length_singleton] at hi ⊢
      rcases Nat.lt_or_ge i dlen with h1 | h1
      · rw [getD_append_lt _ h1]
        obtain ⟨hb, hidx⟩ := wdinv i h1
        have hne : (m.denseArray.getD i default).id % 65536 ≠ n := by
          intro hcontra
          rw [hcontra] at hidx
          rw [hidx] at hnfree
          simp only [hM] at hnfree
          omega
        refine ⟨hb, ?_⟩
        rw [getD_set_ne _ _ (Ne.symm hne)]
        exact hidx
      · have hieq : i = dlen := by omega
        subst hieq
        rw [getD_append_len]
        simp only [hlow]
        refine ⟨hnlt, ?_⟩
        rw [getD_set_self _ _ hnlt]
        simp only [hdm]
    · refine ⟨rest, ?_, ?_, ?_⟩
      · refine freeChain_congr hrest fun s hs => ?_
        obtain ⟨hlt2, -⟩ := freeChain_mem hrest s hs
        refine ⟨by simpa using hlt2, ?_⟩
        exact getD_set_ne _ _ fun hc => hnrest (hc ▸ hs)
      · exact (List.nodup_cons.mp hnodup).2
      · intro s hs
        simp only [sp, List.length_set] at hs ⊢
        rcases eq_or_ne n s with h1 | h1
        · subst h1
          rw [getD_set_self _ _ hnlt]
          simp only [hdm]
          constructor
          · intro hc; omega
          · intro hc; exact absurd hc hnrest
        · rw [getD_set_ne _ _ h1]
          rw [hcov s hs]
          simp only [List.mem_cons]
          constructor
          · rintro (hc | hc)
            · exact absurd hc.symm h1
            · exact hc
          · intro hc; exact Or.inr hc

/-- `remove` when the removed entry is the last dense entry (no swap). -/
theorem remove_noswap [Inhabited α] (m : DenseMap α) (h : Nat)
    (hcase : (m.sparseIndices.getD (h % 65536) default).index =
      m.denseArray.length - 1) :
    remove m h = ⟨m.denseArray.dropLast,
      m.sparseIndices.set (h % 65536)
        ⟨(m.sparseIndices.getD (h % 65536) default).id, INDEX_MASK, m.nextSparse⟩,
      h % 65536⟩ := by
  simp only [remove]
  rw [if_neg fun hc => hc hcase, if_neg fun hc => hc hcase]

/-- `remove` when the removed entry is not the last dense entry: the back
entry is swapped in and its sparse slot repaired. -/
theorem remove_swap [Inhabited α] (m : DenseMap α) (h : Nat)
    (hcase : (m.sparseIndices.getD (h % 65536) default).index ≠
      m.denseArray.length - 1) :
    remove m h = ⟨(m.denseArray.set (m.sparseIndices.getD (h % 65536) default).index
        (m.denseArray.getD (m.denseArray.length - 1) default)).dropLast,
      (m.sparseIndices.set
        ((m.denseArray.getD (m.denseArray.length - 1) default).id % 65536)
        ⟨(m.sparseIndices.getD
            ((m.denseArray.getD (m.denseArray.length - 1) default).id % 65536)
            default).id,
          (m.sparseIndices.getD (h % 65536) default).index,
          (m.sparseIndices.getD
            ((m.denseArray.getD (m.denseArray.length - 1) default).id % 65536)
            default).next⟩).set (h % 65536)
        ⟨(m.sparseIndices.getD (h % 65536) default).id, INDEX_MASK, m.nextSparse⟩,
      h % 65536⟩ := by
  simp only [remove]
  rw [if_pos hcase, if_pos hcase]

theorem WF.remove [Inhabited α] {m : DenseMap α} (wf : WF m) {h : Nat}
    (hh : has m h = true) : WF (remove m h) := by
  have hM : INDEX_MASK = 65535 := rfl
  obtain ⟨hlt, hid, hne⟩ := (has_iff m h).mp hh
  obtain ⟨wsle, wdle, wilt, wilow, wocc, wdinv, wfree⟩ := wf
  have wf2 : WF m := ⟨wsle, wdle, wilt, wilow, wocc, wdinv, wfree⟩
  simp only [sp, dn] at hlt hid hne wilt wilow wocc wdinv wfree
  rw [hM] at wsle wdle
  obtain ⟨hi0lt, hi0id⟩ := wocc (h % 65536) hlt hne
  have hneM : (m.sparseIndices.getD (h % 65536) default).index ≠ 65535 := hne
  have hdpos : 0 < m.denseArray.length := by omega
  have huniq : ∀ s, s < m.sparseIndices.length →
      (m.sparseIndices.getD s default).index ≠ INDEX_MASK →
      (m.sparseIndices.getD s default).index =
        (m.sparseIndices.getD (h % 65536) default).index →
      s = h % 65536 := by
    intro s hs hocc hidx
    exact wf2.occ_inj hs hlt hocc hne hidx
  obtain ⟨fl, hchain, hnodup, hcov⟩ := wfree
  have hs0fl : h % 65536 ∉ fl := fun hc => hne ((hcov _ hlt).mpr hc)
  by_cases hcase : (m.sparseIndices.getD (h % 65536) default).index =
      m.denseArray.length - 1
  · -- the removed entry is the last dense entry: no swap happens
    rw [remove_noswap m h hcase]
    refine ⟨?_, ?_, ?_, ?_, ?_, ?_, ?_⟩
    · simpa [hM] using wsle
    · simp only [List.length_dropLast, hM]; omega
    · intro s hs
      simp only [sp, List.length_set] at hs ⊢
      rcases eq_or_ne (h % 65536) s with h1 | h1
      · rw [← h1, getD_set_self _ _ hlt]
        dsimp only
        exact wilt _ hlt
      · rw [getD_set_ne _ _ h1]
        exact wilt s hs
    · intro s hs
      simp only [sp, List.length_set] at hs ⊢
      rcases eq_or_ne (h % 65536) s with h1 | h1
      · rw [← h1, getD_set_self _ _ hlt]
        dsimp only
        exact wilow _ hlt
      · rw [getD_set_ne _ _ h1]
        exact wilow s hs
    · intro s hs hocc
      simp only [sp, dn, List.length_set, List.length_dropLast] at hs hocc ⊢
      rcases eq_or_ne (h % 65536) s with h1 | h1
      · rw [← h1, getD_set_self _ _ hlt] at hocc
        dsimp only at hocc
        exact absurd rfl hocc
      · rw [getD_set_ne _ _ h1] at hocc ⊢
        obtain ⟨hb, hidm⟩ := wocc s hs hocc
        have hneidx : (m.sparseIndices.getD s default).index ≠
            (m.sparseIndices.getD (h % 65536) default).index :=
          fun hc => h1 (huniq s hs hocc hc).symm
        refine ⟨by omega, ?_⟩
        rw [getD_dropLast _ (by omega)]
        exact hidm
    · intro i hi
      simp only [sp, dn, List.length_set, List.length_dropLast] at hi ⊢
      rw [getD_dropLast _ (by omega)]
      obtain ⟨hb, hidx⟩ := wdinv i (by omega)
      have hsine : (m.denseArray.getD i default).id % 65536 ≠ h % 65536 := by
        intro hc
        rw [hc] at hidx
        omega
      refine ⟨hb, ?_⟩
      rw [getD_set_ne _ _ (Ne.symm hsine)]
      exact hidx
    · refine ⟨(h % 65536) :: fl, ?_, ?_, ?_⟩
      · refine .cons (by simpa using hlt) (by rw [getD_set_self _ _ hlt]) ?_
        rw [getD_set_self _ _ hlt]
        refine freeChain_congr hchain fun s hs => ?_
        obtain ⟨hlt2, -⟩ := freeChain_mem hchain s hs
        exact ⟨by simpa using hlt2,
          getD_set_ne _ _ fun hc => hs0fl (by rw [hc]; exact hs)⟩
      · exact List.nodup_cons.mpr ⟨hs0fl, hnodup⟩
      · intro s hs
        simp only [sp, List.length_set] at hs ⊢
        rcases eq_or_ne (h % 65536) s with h1 | h1
        · rw [← h1, getD_set_self _ _ hlt]
          simp
        · rw [getD_set_ne _ _ h1, hcov s hs]
          simp only [List.mem_cons]
          constructor
          · exact Or.inr
          · rintro (hc | hc)
            · exact absurd hc.symm h1
            · exact hc
  · -- the back entry is swapped into the removed entry's place
    rw [remove_swap m h hcase]
    obtain ⟨hsblt, hsbidx⟩ := wdinv (m.denseArray.length - 1) (by omega)
    have hsbocc : (m.sparseIndices.getD
        ((m.denseArray.getD (m.denseArray.length - 1) default).id % 65536)
        default).index ≠ INDEX_MASK := by
      rw [hsbidx, hM]; omega
    have hsbne : (m.denseArray.getD (m.denseArray.length - 1) default).id % 65536 ≠
        h % 65536 := by
      intro hc
      rw [hc] at hsbidx
      exact hcase hsbidx
    have hsbfl : (m.denseArray.getD (m.denseArray.length - 1) default).id % 65536 ∉ fl :=
      fun hc => hsbocc ((hcov _ hsblt).mpr hc)
    obtain ⟨hbb, hbackid⟩ := wocc _ hsblt hsbocc
    rw [hsbidx] at hbackid
    have hi0lt2 : (m.sparseIndices.getD (h % 65536) default).index <
        m.denseArray.length - 1 := by omega
    refine ⟨?_, ?_, ?_, ?_, ?_, ?_, ?_⟩
    · simpa [hM] using wsle
    · simp only [List.length_dropLast, List.length_set, hM]; omega
    · intro s hs
      simp only [sp, List.length_set] at hs ⊢
      rcases eq_or_ne (h % 65536) s with h1 | h1
      · rw [← h1, getD_set_self _ _ (by simpa using hlt)]
        dsimp only
        exact wilt _ hlt
      · rw [getD_set_ne _ _ h1]
        rcases eq_or_ne
            ((m.denseArray.getD (m.denseArray.length - 1) default).id % 65536) s with
          h2 | h2
        · rw [← h2, getD_set_self _ _ hsblt]
          dsimp only
          exact wilt _ hsblt
        · rw [getD_set_ne _ _ h2]
          exact wilt s (by simpa using hs)
    · intro s hs
      simp only [sp, List.length_set] at hs ⊢
      rcases eq_or_ne (h % 65536) s with h1 | h1
      · rw [← h1, getD_set_self _ _ (by simpa using hlt)]
        dsimp only
        exact wilow _ hlt
      · rw [getD_set_ne _ _ h1]
        rcases eq_or_ne
            ((m.denseArray.getD (m.denseArray.length - 1) default).id % 65536) s with
          h2 | h2
        · rw [← h2, getD_set_self _ _ hsblt]
          dsimp only
          exact wilow _ hsblt
        · rw [getD_set_ne _ _ h2]
          exact wilow s (by simpa using hs)
    · intro s hs hocc
      simp only [sp, dn, List.length_set, List.length_dropLast] at hs hocc ⊢
      rcases eq_or_ne (h % 65536) s with h1 | h1
      · rw [← h1, getD_set_self _ _ (by simpa using hlt)] at hocc
        dsimp only at hocc
        exact absurd rfl hocc
      · rw [getD_set_ne _ _ h1] at hocc ⊢
        rcases eq_or_ne
            ((m.denseArray.getD (m.denseArray.length - 1) default).id % 65536) s with
          h2 | h2
        · rw [← h2, getD_set_self _ _ hsblt] at hocc ⊢
          dsimp only at hocc ⊢
          refine ⟨by omega, ?_⟩
          rw [getD_dropLast _ (by simp only [List.length_set]; omega),
            getD_set_self _ _ (by omega)]
          exact hbackid
        · rw [getD_set_ne _ _ h2] at hocc ⊢
          have hs2 : s < m.sparseIndices.length := by simpa using hs
          obtain ⟨hb, hidm⟩ := wocc s hs2 hocc
          have hne1 : (m.sparseIndices.getD s default).index ≠
              (m.sparseIndices.getD (h % 65536) default).index :=
            fun hc => h1 (huniq s hs2 hocc hc).symm
          have hne2 : (m.sparseIndices.getD s default).index ≠
              m.denseArray.length - 1 := by
            intro hc
            exact h2 (wf2.occ_inj hsblt hs2 hsbocc hocc (hsbidx.trans hc.symm))
          refine ⟨by omega, ?_⟩
          rw [getD_dropLast _ (by simp only [List.length_set]; omega),
            getD_set_ne _ _ (Ne.symm hne1)]
          exact hidm
    · intro i hi
      simp only [sp, dn, List.length_set, List.length_dropLast] at hi ⊢
      rw [getD_dropLast _ (by simp only [List.length_set]; omega)]
      rcases eq_or_ne i ((m.sparseIndices.getD (h % 65536) default).index) with h1 | h1
      · rw [h1, getD_set_self _ _ (by omega)]
        refine ⟨by simpa using hsblt, ?_⟩
        rw [getD_set_ne _ _ (Ne.symm hsbne), getD_set_self _ _ hsblt]
      · rw [getD_set_ne _ _ (Ne.symm h1)]
        obtain ⟨hb, hidx⟩ := wdinv i (by omega)
        have hsine0 : (m.denseArray.getD i default).id % 65536 ≠ h % 65536 := by
          intro hc
          rw [hc] at hidx
          exact h1 hidx.symm
        have hsineb : (m.denseArray.getD i default).id % 65536 ≠
            (m.denseArray.getD (m.denseArray.length - 1) default).id % 65536 := by
          intro hc
          rw [hc, hsbidx] at hidx
          omega
        refine ⟨by simpa using hb, ?_⟩
        rw [getD_set_ne _ _ (Ne.symm hsine0), getD_set_ne _ _ (Ne.symm hsineb)]
        exact hidx
    · refine ⟨(h % 65536) :: fl, ?_, ?_, ?_⟩
      · refine .cons (by simpa using hlt)
          (by rw [getD_set_self _ _ (by simpa using hlt)]) ?_
        rw [getD_set_self _ _ (by simpa using hlt)]
        refine freeChain_congr hchain fun s hs => ?_
        obtain ⟨hlt2, -⟩ := freeChain_mem hchain s hs
        refine ⟨by simpa using hlt2, ?_⟩
        rw [getD_set_ne _ _ fun hc => hs0fl (by rw [hc]; exact hs),
          getD_set_ne _ _ fun hc => hsbfl (by rw [hc]; exact hs)]
      · exact List.nodup_cons.mpr ⟨hs0fl, hnodup⟩
      · intro s hs
        simp only [sp, List.length_set] at hs ⊢
        rcases eq_or_ne (h % 65536) s with h1 | h1
        · rw [← h1, getD_set_self _ _ (by simpa using hlt)]
          simp
        · rw [getD_set_ne _ _ h1]
          rcases eq_or_ne
              ((m.denseArray.getD (m.denseArray.length - 1) default).id % 65536) s with
            h2 | h2
          · rw [← h2, getD_set_self _ _ hsblt]
            dsimp only
            simp only [List.mem_cons]
            constructor
            · intro hc; omega
            · rintro (hc | hc)
              · exact absurd hc.symm (h2 ▸ h1)
              · exact absurd hc (h2 ▸ hsbfl)
          · rw [getD_set_ne _ _ h2, hcov s (by simpa using hs)]
            simp only [List.mem_cons]
            constructor
            · exact Or.inr
            · rintro (hc | hc)
              · exact absurd hc.symm h1
              · exact hc

theorem WF.applyOp [Inhabited α] {m : DenseMap α} (wf : WF m) (op : Op α) :
    WF (applyOp m op) := by
  cases op with
  | add v =>
    simp only [SlotMap.applyOp]
    split
    · exact wf.add v (by assumption)
    · exact wf
  | remove h =>
    simp only [SlotMap.applyOp]
    split
    · exact wf.remove (by assumption)
    · exact wf
  | clear => exact WF.clear m

theorem WF.runFrom [Inhabited α] {m : DenseMap α} (wf : WF m) (ops : List (Op α)) :
    WF (runFrom m ops) := by
  induction ops generalizing m with
  | nil => exact wf
  | cons op rest ih => exact ih (wf.applyOp op)

theorem WF.run [Inhabited α] (ops : List (Op α)) : WF (run (α := α) ops) :=
  (WF.empty α).runFrom ops

/-! ### Effect of `add` on the observers -/

/-- The sparse position used by the next `add`. -/
def addPos (m : DenseMap α) : Nat :=
  if m.nextSparse ≠ INDEX_MASK then m.nextSparse else m.sparseIndices.length

theorem add_dense [Inhabited α] (m : DenseMap α) (v : α) :
    (add m v).2.denseArray = m.denseArray ++ [⟨v, (add m v).1⟩] := by
  by_cases hns : m.nextSparse = INDEX_MASK
  · rw [add_fresh m v hns]
  · rw [add_reuse m v hns]

theorem addPos_lt_reuse [Inhabited α] {m : DenseMap α} (wf : WF m)
    (hns : m.nextSparse ≠ INDEX_MASK) : addPos m < m.sparseIndices.length := by
  obtain ⟨fl, hchain, -, -⟩ := wf.free_inv
  obtain ⟨rest, -, hnlt, -, -⟩ := freeChain_head hchain hns
  simpa [addPos, hns] using hnlt

theorem add_handle_low [Inhabited α] {m : DenseMap α} (wf : WF m) (v : α) :
    (add m v).1 % 65536 = addPos m := by
  by_cases hns : m.nextSparse = INDEX_MASK
  · rw [add_fresh m v hns]
    have hsl : m.sparseIndices.length < 65536 := by
      have := wf.sparse_le
      simp only [INDEX_MASK] at this
      omega
    simp only [addPos, hns, ne_eq, not_true_eq_false, if_false]
    rw [bump_mod_low, Nat.mod_mod_of_dvd _ ⟨65536, by norm_num [ID_MOD]⟩,
      Nat.mod_eq_of_lt hsl]
  · rw [add_reuse m v hns]
    have hnlt := addPos_lt_reuse wf hns
    simp only [addPos, hns, ne_eq, not_false_eq_true, if_true] at hnlt ⊢
    rw [bump_mod_low]
    have := wf.id_low m.nextSparse hnlt
    simpa [sp] using this

theorem add_handle_lt [Inhabited α] (m : DenseMap α) (v : α) :
    (add m v).1 < ID_MOD := by
  by_cases hns : m.nextSparse = INDEX_MASK
  · rw [add_fresh m v hns]; exact bump_lt _
  · rw [add_reuse m v hns]; exact bump_lt _

theorem add_sparse_len [Inhabited α] (m : DenseMap α) (v : α) :
    (add m v).2.sparseIndices.length =
      (if m.nextSparse ≠ INDEX_MASK then m.sparseIndices.length
       else m.sparseIndices.length + 1) := by
  by_cases hns : m.nextSparse = INDEX_MASK
  · rw [add_fresh m v hns]; simp [hns]
  · rw [add_reuse m v hns]; simp [hns]

theorem add_sp_pos [Inhabited α] {m : DenseMap α} (wf : WF m)
    (hg : m.denseArray.length < INDEX_MASK) (v : α) :
    (sp (add m v).2 (addPos m)).id = (add m v).1 ∧
    (sp (add m v).2 (addPos m)).index = m.denseArray.length := by
  have hdm : m.denseArray.length % 65536 = m.denseArray.length :=
    Nat.mod_eq_of_lt (by simp only [INDEX_MASK] at hg; omega)
  by_cases hns : m.nextSparse = INDEX_MASK
  · rw [add_fresh m v hns]
    simp only [addPos, hns, ne_eq, not_true_eq_false, if_false, sp]
    rw [getD_append_len]
    exact ⟨rfl, hdm⟩
  · rw [add_reuse m v hns]
    have hnlt := addPos_lt_reuse wf hns
    simp only [addPos, hns, ne_eq, not_false_eq_true, if_true] at hnlt ⊢
    simp only [sp]
    rw [getD_set_self _ _ hnlt]
    exact ⟨rfl, hdm⟩

theorem add_sp_other [Inhabited α] (m : DenseMap α) (v : α) {s : Nat}
    (hs : s ≠ addPos m) : sp (add m v).2 s = sp m s := by
  by_cases hns : m.nextSparse = INDEX_MASK
  · rw [add_fresh m v hns]
    simp only [addPos, hns, ne_eq, not_true_eq_false, if_false] at hs
    simp only [sp]
    rcases Nat.lt_or_ge s m.sparseIndices.length with h1 | h1
    · rw [getD_append_lt _ h1]
    · rw [getD_oob _ (by simp; omega), getD_oob _ h1]
  · rw [add_reuse m v hns]
    simp only [addPos, hns, ne_eq, not_false_eq_true, if_true] at hs
    simp only [sp]
    rw [getD_set_ne _ _ (Ne.symm hs)]

theorem bool_eq_of_iff {a b : Bool} (hiff : a = true ↔ b = true) : a = b := by
  cases a <;> cases b <;> simp_all

theorem has_add_not_before [Inhabited α] {m : DenseMap α} (wf : WF m) (v : α) :
    has m (add m v).1 = false := by
  rw [← Bool.not_eq_true]
  intro hc
  obtain ⟨hlt, hid, hne⟩ := (has_iff m _).mp hc
  rw [add_handle_low wf v] at hlt hid hne
  by_cases hns : m.nextSparse = INDEX_MASK
  · simp only [addPos, hns, ne_eq, not_true_eq_false, if_false] at hlt
    omega
  · have hfree : (sp m (addPos m)).index = INDEX_MASK := by
      obtain ⟨fl, hchain, -, -⟩ := wf.free_inv
      obtain ⟨rest, -, hnlt, hnfree, -⟩ := freeChain_head hchain hns
      simpa [addPos, hns, sp] using hnfree
    exact hne hfree

theorem has_add_new [Inhabited α] {m : DenseMap α} (wf : WF m)
    (hg : m.denseArray.length < INDEX_MASK) (v : α) :
    has (add m v).2 (add m v).1 = true := by
  refine (has_iff _ _).mpr ?_
  have hwf2 := wf.add v hg
  have hlow : (add m v).1 % 65536 = addPos m := add_handle_low wf v
  obtain ⟨hspid, hspidx⟩ := add_sp_pos wf hg v
  refine ⟨?_, by rw [hlow]; exact hspid, ?_⟩
  · rw [hlow, add_sparse_len]
    by_cases hns : m.nextSparse = INDEX_MASK
    · simp only [addPos, hns, ne_eq, not_true_eq_false, if_false]; omega
    · simp only [addPos, hns, ne_eq, not_false_eq_true, if_true]
      simpa [addPos, hns] using addPos_lt_reuse wf hns
  · rw [hlow, hspidx]
    simp only [INDEX_MASK] at hg ⊢
    omega

theorem has_add_old [Inhabited α] {m : DenseMap α} (wf : WF m)
    (hg : m.denseArray.length < INDEX_MASK) (v : α) {h : Nat}
    (hne : h ≠ (add m v).1) : has (add m v).2 h = has m h := by
  by_cases hsp : h % 65536 = addPos m
  · -- the handle names the reused position: invalid before and after
    have hafter : has (add m v).2 h = false := by
      rw [← Bool.not_eq_true]
      intro hc
      obtain ⟨-, hid, -⟩ := (has_iff _ _).mp hc
      rw [hsp] at hid
      exact hne ((add_sp_pos wf hg v).1 ▸ hid).symm
    have hbefore : has m h = false := by
      rw [← Bool.not_eq_true]
      intro hc
      obtain ⟨hlt, hid, hne2⟩ := (has_iff _ _).mp hc
      rw [hsp] at hlt hid hne2
      by_cases hns : m.nextSparse = INDEX_MASK
      · simp only [addPos, hns, ne_eq, not_true_eq_false, if_false] at hlt
        omega
      · obtain ⟨fl, hchain, -, -⟩ := wf.free_inv
        obtain ⟨rest, -, hnlt, hnfree, -⟩ := freeChain_head hchain hns
        exact hne2 (by simpa [addPos, hns, sp] using hnfree)
    rw [hafter, hbefore]
  · have hsame : sp (add m v).2 (h % 65536) = sp m (h % 65536) :=
      add_sp_other m v hsp
    refine bool_eq_of_iff ?_
    rw [has_iff, has_iff, hsame]
    have hlen := add_sparse_len m v
    by_cases hns : m.nextSparse = INDEX_MASK
    · simp only [addPos, hns, ne_eq, not_true_eq_false, if_false] at hsp
      simp only [hns, ne_eq, not_true_eq_false, if_false] at hlen
      rw [hlen]
      constructor
      · rintro ⟨h1, h2, h3⟩; exact ⟨by omega, h2, h3⟩
      · rintro ⟨h1, h2, h3⟩; exact ⟨by omega, h2, h3⟩
    · simp only [hns, ne_eq, not_false_eq_true, if_true] at hlen
      rw [hlen]

theorem find?_eq_dn [Inhabited α] {m : DenseMap α} {h : Nat}
    (hlt : h % 65536 < m.sparseIndices.length)
    (hbound : (sp m (h % 65536)).index < m.denseArray.length) :
    find? m h = some ((dn m ((sp m (h % 65536)).index)).data) := by
  unfold find?
  rw [get?_eq_getD default hlt]
  show (match m.denseArray.get? (sp m (h % 65536)).index with
    | none => none
    | some obj => some obj.data) = _
  rw [get?_eq_getD default hbound]
  rfl

theorem find?_add_new [Inhabited α] {m : DenseMap α} (wf : WF m)
    (hg : m.denseArray.length < INDEX_MASK) (v : α) :
    find? (add m v).2 (add m v).1 = some v := by
  have hwf2 := wf.add v hg
  have hh := has_add_new wf hg v
  obtain ⟨hlt, -, -⟩ := (has_iff _ _).mp hh
  obtain ⟨hspid, hspidx⟩ := add_sp_pos wf hg v
  rw [add_handle_low wf v] at hlt
  rw [find?_eq_dn (by rw [add_handle_low wf v]; exact hlt) ?_]
  · rw [add_handle_low wf v, hspidx]
    simp only [dn, add_dense m v]
    rw [getD_append_len]
  · rw [add_handle_low wf v, hspidx, add_dense m v]
    simp

theorem find?_add_old [Inhabited α] {m : DenseMap α} (wf : WF m)
    (hg : m.denseArray.length < INDEX_MASK) (v : α) {h : Nat}
    (hh : has m h = true) : find? (add m v).2 h = find? m h := by
  obtain ⟨hlt, hid, hne⟩ := (has_iff m h).mp hh
  have hnotpos : h % 65536 ≠ addPos m := by
    intro hc
    by_cases hns : m.nextSparse = INDEX_MASK
    · simp only [addPos, hns, ne_eq, not_true_eq_false, if_false] at hc
      omega
    · obtain ⟨fl, hchain, -, -⟩ := wf.free_inv
      obtain ⟨rest, -, hnlt, hnfree, -⟩ := freeChain_head hchain hns
      rw [hc] at hne
      exact hne (by simpa [addPos, hns, sp] using hnfree)
  have hsame : sp (add m v).2 (h % 65536) = sp m (h % 65536) :=
    add_sp_other m v hnotpos
  obtain ⟨hbound, -⟩ := wf.occ _ hlt hne
  have hlt2 : h % 65536 < (add m v).2.sparseIndices.length := by
    rw [add_sparse_len]
    split <;> omega
  rw [find?_eq_dn hlt2 (by rw [hsame, add_dense m v]; simp; omega),
    find?_eq_dn hlt hbound, hsame]
  simp only [dn, add_dense m v]
  rw [getD_append_lt _ hbound]

/-! ### Effect of `remove` on the observers -/

theorem remove_sparse_len [Inhabited α] (m : DenseMap α) (h : Nat) :
    (remove m h).sparseIndices.length = m.sparseIndices.length := by
  by_cases hcase : (m.sparseIndices.getD (h % 65536) default).index =
      m.denseArray.length - 1
  · rw [remove_noswap m h hcase]; simp
  · rw [remove_swap m h hcase]; simp

theorem remove_dense_len [Inhabited α] (m : DenseMap α) (h : Nat) :
    (remove m h).denseArray.length = m.denseArray.length - 1 := by
  by_cases hcase : (m.sparseIndices.getD (h % 65536) default).index =
      m.denseArray.length - 1
  · rw [remove_noswap m h hcase]; simp
  · rw [remove_swap m h hcase]; simp

theorem remove_sp_self [Inhabited α] {m : DenseMap α} {h : Nat}
    (hlt : h % 65536 < m.sparseIndices.length) :
    sp (remove m h) (h % 65536) =
      ⟨(m.sparseIndices.getD (h % 65536) default).id, INDEX_MASK, m.nextSparse⟩ := by
  by_cases hcase : (m.sparseIndices.getD (h % 65536) default).index =
      m.denseArray.length - 1
  · rw [remove_noswap m h hcase]
    simp only [sp]
    rw [getD_set_self _ _ (by simpa using hlt)]
  · rw [remove_swap m h hcase]
    simp only [sp]
    rw [getD_set_self _ _ (by simpa using hlt)]

theorem has_remove_self [Inhabited α] {m : DenseMap α} {h : Nat}
    (hlt : h % 65536 < m.sparseIndices.length) :
    has (remove m h) h = false := by
  rw [← Bool.not_eq_true]
  intro hc
  obtain ⟨-, -, hne2⟩ := (has_iff _ _).mp hc
  rw [remove_sp_self hlt] at hne2
  exact hne2 rfl

theorem has_remove_other [Inhabited α] {m : DenseMap α} (wf : WF m) {h h2 : Nat}
    (hh : has m h = true) (hne : h2 ≠ h) :
    has (remove m h) h2 = has m h2 := by
  have hM : INDEX_MASK = 65535 := rfl
  obtain ⟨hlt, hid, hneM⟩ := (has_iff m h).mp hh
  simp only [sp] at hlt hid hneM
  obtain ⟨hi0lt, -⟩ := wf.occ _ hlt hneM
  simp only [sp, dn] at hi0lt
  have hdpos : 0 < m.denseArray.length := by omega
  have hdle := wf.dense_le
  rw [hM] at hdle
  refine bool_eq_of_iff ?_
  rw [has_iff, has_iff, remove_sparse_len]
  by_cases hs0 : h2 % 65536 = h % 65536
  · -- same home slot as the removed handle: dead before and after
    rw [hs0, remove_sp_self hlt]
    dsimp only
    simp only [sp] at hid ⊢
    constructor
    · rintro ⟨-, -, hc⟩; exact absurd rfl hc
    · rintro ⟨-, hc, -⟩
      exact absurd (hid.symm.trans hc).symm hne
  · by_cases hcase : (m.sparseIndices.getD (h % 65536) default).index =
        m.denseArray.length - 1
    · rw [remove_noswap m h hcase]
      simp only [sp]
      rw [getD_set_ne _ _ fun hc => hs0 hc.symm]
    · rw [remove_swap m h hcase]
      simp only [sp]
      rw [getD_set_ne _ _ fun hc => hs0 hc.symm]
      obtain ⟨hsblt, hsbidx⟩ := wf.dense_inv (m.denseArray.length - 1) (by omega)
      simp only [sp, dn] at hsblt hsbidx
      by_cases hsb : h2 % 65536 =
          (m.denseArray.getD (m.denseArray.length - 1) default).id % 65536
      · rw [hsb, getD_set_self _ _ hsblt]
        dsimp only
        rw [hsbidx]
        constructor
        · rintro ⟨ha, hb, -⟩
          exact ⟨ha, hb, by omega⟩
        · rintro ⟨ha, hb, -⟩
          exact ⟨ha, hb, by rw [hM]; omega⟩
      · rw [getD_set_ne _ _ fun hc => hsb hc.symm]

theorem find?_remove_other [Inhabited α] {m : DenseMap α} (wf : WF m) {h h2 : Nat}
    (hh : has m h = true) (hh2 : has m h2 = true) (hne : h2 ≠ h) :
    find? (remove m h) h2 = find? m h2 := by
  have hM : INDEX_MASK = 65535 := rfl
  obtain ⟨hlt, hid, hneM⟩ := (has_iff m h).mp hh
  obtain ⟨hlt2, hid2, hneM2⟩ := (has_iff m h2).mp hh2
  obtain ⟨hi0lt, hi0id⟩ := wf.occ _ hlt hneM
  obtain ⟨hb2, hidm2⟩ := wf.occ _ hlt2 hneM2
  simp only [sp, dn] at hlt hid hneM hlt2 hid2 hneM2 hi0lt hi0id hb2 hidm2
  have hdpos : 0 < m.denseArray.length := by omega
  have hdle := wf.dense_le
  rw [hM] at hdle
  have hs0 : h2 % 65536 ≠ h % 65536 := by
    intro hc
    rw [hc, hid] at hid2
    exact hne hid2.symm
  have hneidx : (m.sparseIndices.getD (h2 % 65536) default).index ≠
      (m.sparseIndices.getD (h % 65536) default).index := by
    intro hc
    exact hs0 (wf.occ_inj hlt2 hlt hneM2 hneM hc)
  have hfind2 : find? m h2 = some
      ((m.denseArray.getD ((m.sparseIndices.getD (h2 % 65536) default).index)
        default).data) := by
    have := find?_eq_dn (m := m) (h := h2) hlt2 (by simpa [sp] using hb2)
    simpa [sp, dn] using this
  by_cases hcase : (m.sparseIndices.getD (h % 65536) default).index =
      m.denseArray.length - 1
  · -- no swap: dense entries other than the dropped one are untouched
    have hne2 : (m.sparseIndices.getD (h2 % 65536) default).index ≠
        m.denseArray.length - 1 := by rw [← hcase]; exact hneidx
    rw [remove_noswap m h hcase, hfind2]
    have hsp2 : ((m.sparseIndices.set (h % 65536)
        ⟨(m.sparseIndices.getD (h % 65536) default).id, INDEX_MASK,
          m.nextSparse⟩).getD (h2 % 65536) default) =
        m.sparseIndices.getD (h2 % 65536) default :=
      getD_set_ne _ _ fun hc => hs0 hc.symm
    rw [find?_eq_dn (m := ⟨m.denseArray.dropLast, _, _⟩) (h := h2)
      (by simpa using hlt2)
      (by simp only [sp]; rw [hsp2]; simp only [List.length_dropLast]; omega)]
    simp only [sp, dn, hsp2]
    rw [getD_dropLast _ (by omega)]
  · rw [remove_swap m h hcase]
    obtain ⟨hsblt, hsbidx⟩ := wf.dense_inv (m.denseArray.length - 1) (by omega)
    simp only [sp, dn] at hsblt hsbidx
    have hsp2outer : ∀ a, ((m.sparseIndices.set
        ((m.denseArray.getD (m.denseArray.length - 1) default).id % 65536) a).set
        (h % 65536)
        ⟨(m.sparseIndices.getD (h % 65536) default).id, INDEX_MASK,
          m.nextSparse⟩).getD (h2 % 65536) default =
        (m.sparseIndices.set
          ((m.denseArray.getD (m.denseArray.length - 1) default).id % 65536) a).getD
          (h2 % 65536) default :=
      fun a => getD_set_ne _ _ fun hc => hs0 hc.symm
    by_cases hsb : h2 % 65536 =
        (m.denseArray.getD (m.denseArray.length - 1) default).id % 65536
    · -- the other handle owns the back entry, which moves to the freed spot
      have hidxb : (m.sparseIndices.getD (h2 % 65536) default).index =
          m.denseArray.length - 1 := by rw [hsb, hsbidx]
      rw [hfind2, hidxb]
      rw [find?_eq_dn (h := h2) (by simpa using hlt2) ?_]
      · simp only [sp, dn, hsp2outer]
        rw [hsb, getD_set_self _ _ hsblt]
        dsimp only
        rw [getD_dropLast _ (by simp only [List.length_set]; omega),
          getD_set_self _ _ (by omega)]
      · simp only [sp, hsp2outer]
        rw [hsb, getD_set_self _ _ hsblt]
        dsimp only
        simp only [List.length_dropLast, List.length_set]
        omega
    · have hne3 : (m.sparseIndices.getD (h2 % 65536) default).index ≠
          m.denseArray.length - 1 := by
        intro hc
        exact hsb (wf.occ_inj hlt2 hsblt hneM2 (by simp only [sp]; rw [hsbidx, hM]; omega)
          (by simp only [sp]; rw [hsbidx]; exact hc))
      rw [hfind2]
      rw [find?_eq_dn (h := h2) (by simpa using hlt2) ?_]
      · simp only [sp, dn, hsp2outer]
        rw [getD_set_ne _ _ fun hc => hsb hc.symm]
        rw [getD_dropLast _ (by simp only [List.length_set]; omega),
          getD_set_ne _ _ (Ne.symm hneidx)]
      · simp only [sp, hsp2outer]
        rw [getD_set_ne _ _ fun hc => hsb hc.symm]
        simp only [List.length_dropLast, List.length_set]
        omega

/-! ### Counting valid handles -/

/-- A handle is valid exactly when some dense entry carries it as its id. -/
theorem has_iff_dense [Inhabited α] {m : DenseMap α} (wf : WF m) (h : Nat) :
    has m h = true ↔ ∃ i, i < m.denseArray.length ∧ (dn m i).id = h := by
  constructor
  · intro hc
    obtain ⟨hlt, hid, hne⟩ := (has_iff m h).mp hc
    obtain ⟨hb, hidm⟩ := wf.occ _ hlt hne
    exact ⟨(sp m (h % 65536)).index, hb, by rw [hidm, hid]⟩
  · rintro ⟨i, hi, hidm⟩
    obtain ⟨hs, hidx⟩ := wf.dense_inv i hi
    obtain ⟨hspid, hidlt⟩ := wf.dense_id hi
    refine (has_iff m h).mpr ?_
    have hlow : h % 65536 = (dn m i).id % 65536 := by rw [hidm]
    rw [hlow]
    refine ⟨hs, by rw [hspid, hidm], ?_⟩
    rw [hidx]
    have := wf.dense_le
    simp only [INDEX_MASK] at this ⊢
    omega

/-- The number of valid handles equals the dense array's length. -/
theorem valid_card [Inhabited α] {m : DenseMap α} (wf : WF m) :
    (Finset.filter (fun h => has m h = true) (Finset.range ID_MOD)).card =
      m.denseArray.length := by
  have hset : Finset.filter (fun h => has m h = true) (Finset.range ID_MOD) =
      Finset.image (fun i => (dn m i).id) (Finset.range m.denseArray.length) := by
    ext h
    simp only [Finset.mem_filter, Finset.mem_range, Finset.mem_image]
    constructor
    · rintro ⟨-, hc⟩
      obtain ⟨i, hi, hidm⟩ := (has_iff_dense wf h).mp hc
      exact ⟨i, hi, hidm⟩
    · rintro ⟨i, hi, hidm⟩
      refine ⟨?_, (has_iff_dense wf h).mpr ⟨i, hi, hidm⟩⟩
      rw [← hidm]
      exact (wf.dense_id hi).2
  rw [hset, Finset.card_image_of_injOn ?_, Finset.card_range]
  intro i hi j hj hij
  simp only [Finset.coe_range, Set.mem_Iio] at hi hj
  have h1 := (wf.dense_inv i hi).2
  have h2 := (wf.dense_inv j hj).2
  simp only at hij
  rw [hij] at h1
  rw [h1] at h2
  exact h2

/-! ### The ghost log refines the concrete map -/

theorem lookup_cons_self {α : Type} (h : Nat) (v : α) (A : List (Nat × α)) :
    ((h, v) :: A).lookup h = some v := by
  simp [List.lookup]

theorem lookup_cons_ne {α : Type} {h h2 : Nat} (v : α) (A : List (Nat × α))
    (hne : h2 ≠ h) : ((h, v) :: A).lookup h2 = A.lookup h2 := by
  have hb : (h2 == h) = false := beq_eq_false_iff_ne.mpr hne
  simp [List.lookup, hb]

theorem lookup_filter_self {α : Type} (h : Nat) (A : List (Nat × α)) :
    (A.filter fun q => q.1 != h).lookup h = none := by
  induction A with
  | nil => rfl
  | cons q rest ih =>
    obtain ⟨qk, qv⟩ := q
    rw [List.filter_cons]
    by_cases hq : qk = h
    · rw [if_neg (by simp [hq])]
      exact ih
    · rw [if_pos (by simpa using hq)]
      have hb : (h == qk) = false := beq_eq_false_iff_ne.mpr (Ne.symm hq)
      simp [List.lookup, hb, ih]

theorem lookup_filter_ne {α : Type} {h h2 : Nat} (A : List (Nat × α))
    (hne : h2 ≠ h) : (A.filter fun q => q.1 != h).lookup h2 = A.lookup h2 := by
  induction A with
  | nil => rfl
  | cons q rest ih =>
    obtain ⟨qk, qv⟩ := q
    rw [List.filter_cons]
    by_cases hq : qk = h
    · rw [if_neg (by simp [hq])]
      have hb : (h2 == qk) = false := beq_eq_false_iff_ne.mpr (hq ▸ hne)
      rw [ih]
      simp [List.lookup, hb]
    · rw [if_pos (by simpa using hq)]
      by_cases hq2 : h2 = qk
      · simp [List.lookup, hq2]
      · have hb : (h2 == qk) = false := beq_eq_false_iff_ne.mpr hq2
        simp [List.lookup, hb, ih]

/-- The refinement invariant tying the ghost log to the concrete map: the
log's keys are exactly the valid handles and the logged value of a valid
handle is what `find` returns for it. -/
def GhostInv [Inhabited α] (m : DenseMap α) (A : List (Nat × α)) : Prop :=
  WF m ∧ (∀ h : Nat, has m h = true ↔ (A.lookup h).isSome = true) ∧
    (∀ (h : Nat) (v : α), A.lookup h = some v → find? m h = some v)

theorem has_clear [Inhabited α] (m : DenseMap α) (h : Nat) :
    has (clear m) h = false := by
  simp [has, clear]

theorem ghostInv_step [Inhabited α] {m : DenseMap α} {A : List (Nat × α)}
    (hinv : GhostInv m A) (op : Op α) :
    GhostInv (stepBoth (m, A) op).1 (stepBoth (m, A) op).2 := by
  obtain ⟨wf, hkeys, hval⟩ := hinv
  cases op with
  | add v =>
    by_cases hg : m.denseArray.length < INDEX_MASK
    · simp only [stepBoth, hg, if_true]
      refine ⟨wf.add v hg, ?_, ?_⟩
      · intro h
        by_cases hh : h = (add m v).1
        · rw [hh, has_add_new wf hg v, lookup_cons_self]
          simp
        · rw [has_add_old wf hg v hh, lookup_cons_ne _ _ hh]
          exact hkeys h
      · intro h w hw
        by_cases hh : h = (add m v).1
        · rw [hh] at hw
          rw [lookup_cons_self] at hw
          cases hw
          rw [hh]
          exact find?_add_new wf hg v
        · rw [lookup_cons_ne _ _ hh] at hw
          have hh2 : has m h = true := (hkeys h).mpr (by rw [hw]; rfl)
          rw [find?_add_old wf hg v hh2]
          exact hval h w hw
    · simp only [stepBoth, hg, if_false]
      exact ⟨wf, hkeys, hval⟩
  | remove h =>
    by_cases hg : has m h = true
    · simp only [stepBoth, hg, if_true]
      obtain ⟨hlt, -, -⟩ := (has_iff m h).mp hg
      refine ⟨wf.remove hg, ?_, ?_⟩
      · intro h2
        by_cases hh : h2 = h
        · subst hh
          rw [has_remove_self hlt, lookup_filter_self]
          simp
        · rw [has_remove_other wf hg hh, lookup_filter_ne _ hh]
          exact hkeys h2
      · intro h2 w hw
        by_cases hh : h2 = h
        · subst hh
          rw [lookup_filter_self] at hw
          cases hw
        · rw [lookup_filter_ne _ hh] at hw
          have hh2 : has m h2 = true := (hkeys h2).mpr (by rw [hw]; rfl)
          rw [find?_remove_other wf hg hh2 hh]
          exact hval h2 w hw
    · simp only [stepBoth, hg, if_false]
      exact ⟨wf, hkeys, hval⟩
  | clear =>
    simp only [stepBoth]
    refine ⟨WF.clear m, ?_, ?_⟩
    · intro h
      rw [has_clear]
      simp [List.lookup]
    · intro h w hw
      cases hw

theorem ghostInv_runBoth [Inhabited α] (ops : List (Op α)) :
    GhostInv (runBoth ops).1 (runBoth ops).2 := by
  suffices hgen : ∀ (p : DenseMap α × List (Nat × α)), GhostInv p.1 p.2 →
      GhostInv (ops.foldl stepBoth p).1 (ops.foldl stepBoth p).2 by
    refine hgen (empty α, []) ⟨WF.empty α, ?_, ?_⟩
    · intro h
      simp [has, empty, List.lookup]
    · intro h w hw
      cases hw
  induction ops with
  | nil => exact fun p hp => hp
  | cons op rest ih =>
    intro p hp
    exact ih _ (by
      have := ghostInv_step hp op
      cases p
      exact this)

theorem stepBoth_fst [Inhabited α] (p : DenseMap α × List (Nat × α)) (op : Op α) :
    (stepBoth p op).1 = applyOp p.1 op := by
  cases op with
  | add v =>
    simp only [stepBoth, applyOp]
    split <;> rfl
  | remove h =>
    simp only [stepBoth, applyOp]
    split <;> rfl
  | clear => rfl

theorem runBoth_fst [Inhabited α] (ops : List (Op α)) :
    (runBoth ops).1 = run ops := by
  suffices hgen : ∀ (p : DenseMap α × List (Nat × α)),
      (ops.foldl stepBoth p).1 = ops.foldl applyOp p.1 from hgen (empty α, [])
  induction ops with
  | nil => exact fun p => rfl
  | cons op rest ih =>
    intro p
    rw [List.foldl_cons, List.foldl_cons, ih, stepBoth_fst]

/-! ### Tracking one slot's generation counter across operations -/

/-- The slot named by handle `h`'s low bits exists and its stored id is `h`
advanced by `k` generation bumps (32-bit arithmetic). -/
def SlotGen [Inhabited α] (m : DenseMap α) (h k : Nat) : Prop :=
  h % 65536 < m.sparseIndices.length ∧
    (sp m (h % 65536)).id = (h + k * 65536) % ID_MOD

/-- `SlotGen` strengthened with: while no bump has happened yet, the slot is
still free (so `h` cannot validate). -/
def SlotGenFree [Inhabited α] (m : DenseMap α) (h k : Nat) : Prop :=
  SlotGen m h k ∧ (k = 0 → (sp m (h % 65536)).index = INDEX_MASK)

theorem remove_sp_id [Inhabited α] {m : DenseMap α} (wf : WF m) {h2 : Nat}
    (hh : has m h2 = true) {s : Nat} (hs : s < m.sparseIndices.length) :
    (sp (remove m h2) s).id = (sp m s).id := by
  obtain ⟨hlt, hid, hne⟩ := (has_iff m h2).mp hh
  obtain ⟨hi0lt, -⟩ := wf.occ _ hlt hne
  have hdpos : 0 < m.denseArray.length := by omega
  by_cases hs0 : s = h2 % 65536
  · rw [hs0, remove_sp_self hlt]
    rfl
  · by_cases hcase : (m.sparseIndices.getD (h2 % 65536) default).index =
        m.denseArray.length - 1
    · rw [remove_noswap m h2 hcase]
      simp only [sp]
      rw [getD_set_ne _ _ (Ne.symm hs0)]
    · rw [remove_swap m h2 hcase]
      simp only [sp]
      rw [getD_set_ne _ _ (Ne.symm hs0)]
      by_cases hsb : s =
          (m.denseArray.getD (m.denseArray.length - 1) default).id % 65536
      · obtain ⟨hsblt, -⟩ := wf.dense_inv (m.denseArray.length - 1) (by omega)
        simp only [sp, dn] at hsblt
        rw [hsb, getD_set_self _ _ hsblt]
      · rw [getD_set_ne _ _ (Ne.symm hsb)]

theorem slotGenFree_applyOp [Inhabited α] {m : DenseMap α} (wf : WF m)
    {h k : Nat} (hsf : SlotGenFree m h k) (op : Op α) (hop : op ≠ Op.clear) :
    SlotGenFree (applyOp m op) h k ∨
      ((∃ v, op = Op.add v) ∧ SlotGenFree (applyOp m op) h (k + 1)) := by
  obtain ⟨hsg, hfree⟩ := hsf
  cases op with
  | add v =>
    simp only [applyOp]
    split
    · rename_i hg
      obtain ⟨hlt, hidg⟩ := hsg
      by_cases hpos : h % 65536 = addPos m
      · -- the add reuses exactly this slot: the generation is bumped once
        right
        refine ⟨⟨v, rfl⟩, ⟨?_, ?_⟩, by omega⟩
        · rw [add_sparse_len]
          split <;> omega
        · rw [hpos, (add_sp_pos wf hg v).1]
          by_cases hns : m.nextSparse = INDEX_MASK
          · exfalso
            rw [hpos] at hlt
            simp only [addPos, hns, ne_eq, not_true_eq_false, if_false] at hlt
            omega
          · rw [add_reuse m v hns]
            have heq : sp m m.nextSparse = sp m (h % 65536) := by
              rw [hpos]
              simp [addPos, hns]
            rw [heq, hidg, Nat.mod_add_mod]
            have harith : h + k * 65536 + 65536 = h + (k + 1) * 65536 := by ring
            rw [harith]
      · -- some other slot was used: this slot's record is untouched
        left
        refine ⟨⟨?_, ?_⟩, fun hk => ?_⟩
        · rw [add_sparse_len]
          split <;> omega
        · rw [add_sp_other m v hpos]
          exact hidg
        · rw [add_sp_other m v hpos]
          exact hfree hk
    · exact Or.inl ⟨hsg, hfree⟩
  | remove h2 =>
    left
    obtain ⟨hlt, hidg⟩ := hsg
    simp only [applyOp]
    split
    · rename_i hg
      refine ⟨⟨by rw [remove_sparse_len]; exact hlt, ?_⟩, fun hk => ?_⟩
      · rw [remove_sp_id wf hg hlt, hidg]
      · -- a free slot stays free across `remove`
        obtain ⟨hlt2, hid2, hne2⟩ := (has_iff m h2).mp hg
        obtain ⟨hi0lt, -⟩ := wf.occ _ hlt2 hne2
        have hdpos : 0 < m.denseArray.length := by omega
        have hfree2 := hfree hk
        by_cases hs0 : h % 65536 = h2 % 65536
        · rw [hs0, remove_sp_self hlt2]
        · by_cases hcase : (m.sparseIndices.getD (h2 % 65536) default).index =
              m.denseArray.length - 1
          · rw [remove_noswap m h2 hcase]
            simp only [sp]
            rw [getD_set_ne _ _ (Ne.symm hs0)]
            exact hfree2
          · rw [remove_swap m h2 hcase]
            simp only [sp]
            rw [getD_set_ne _ _ (Ne.symm hs0)]
            obtain ⟨hsblt, hsbidx⟩ := wf.dense_inv (m.denseArray.length - 1)
              (by omega)
            simp only [sp, dn] at hsblt hsbidx
            have hsb : h % 65536 ≠
                (m.denseArray.getD (m.denseArray.length - 1) default).id % 65536 := by
              intro hc
              have := hfree2
              simp only [sp] at this
              rw [hc] at this
              rw [this] at hsbidx
              have hdle := wf.dense_le
              simp only [INDEX_MASK] at hdle hsbidx
              omega
            rw [getD_set_ne _ _ (Ne.symm hsb)]
            exact hfree2
    · exact ⟨⟨hlt, hidg⟩, hfree⟩
  | clear => exact absurd rfl hop

theorem slotGen_applyOp [Inhabited α] {m : DenseMap α} (wf : WF m)
    {h k : Nat} (hsg : SlotGen m h k) (op : Op α) (hop : op ≠ Op.clear) :
    SlotGen (applyOp m op) h k ∨ SlotGen (applyOp m op) h (k + 1) := by
  cases op with
  | add v =>
    simp only [applyOp]
    split
    · rename_i hg
      obtain ⟨hlt, hidg⟩ := hsg
      by_cases hpos : h % 65536 = addPos m
      · right
        refine ⟨?_, ?_⟩
        · rw [add_sparse_len]
          split <;> omega
        · rw [hpos, (add_sp_pos wf hg v).1]
          by_cases hns : m.nextSparse = INDEX_MASK
          · exfalso
            rw [hpos] at hlt
            simp only [addPos, hns, ne_eq, not_true_eq_false, if_false] at hlt
            omega
          · rw [add_reuse m v hns]
            have heq : sp m m.nextSparse = sp m (h % 65536) := by
              rw [hpos]
              simp [addPos, hns]
            rw [heq, hidg, Nat.mod_add_mod]
            have harith : h + k * 65536 + 65536 = h + (k + 1) * 65536 := by ring
            rw [harith]
      · left
        refine ⟨?_, ?_⟩
        · rw [add_sparse_len]
          split <;> omega
        · rw [add_sp_other m v hpos]
          exact hidg
    · exact Or.inl hsg
  | remove h2 =>
    left
    obtain ⟨hlt, hidg⟩ := hsg
    simp only [applyOp]
    split
    · rename_i hg
      refine ⟨by rw [remove_sparse_len]; exact hlt, ?_⟩
      rw [remove_sp_id wf hg hlt, hidg]
    · exact ⟨hlt, hidg⟩
  | clear => exact absurd rfl hop

theorem noClear_cons {op : Op α} {rest : List (Op α)}
    (hnc : noClear (op :: rest) = true) :
    op ≠ Op.clear ∧ noClear rest = true := by
  simp only [noClear, List.all_cons, Bool.and_eq_true] at hnc
  refine ⟨?_, hnc.2⟩
  intro hc
  subst hc
  simp at hnc

theorem numAdds_cons (op : Op α) (rest : List (Op α)) :
    numAdds (op :: rest) =
      numAdds rest + (if (match op with | Op.add _ => true | _ => false) = true
        then 1 else 0) := by
  simp [numAdds, List.countP_cons]

theorem slotGen_runFrom [Inhabited α] {m : DenseMap α} (wf : WF m)
    {h k : Nat} (hsg : SlotGen m h k) {ops : List (Op α)}
    (hnc : noClear ops = true) :
    ∃ k2, k ≤ k2 ∧ k2 ≤ k + numAdds ops ∧ SlotGen (runFrom m ops) h k2 := by
  induction ops generalizing m k with
  | nil => exact ⟨k, Nat.le_refl k, by simp [numAdds], hsg⟩
  | cons op rest ih =>
    obtain ⟨hop, hrest⟩ := noClear_cons hnc
    rcases slotGen_applyOp wf hsg op hop with h1 | h1
    · obtain ⟨k2, ha, hb, hsg2⟩ := ih (wf.applyOp op) h1 hrest
      refine ⟨k2, ha, ?_, hsg2⟩
      rw [numAdds_cons]
      split <;> omega
    · obtain ⟨k2, ha, hb, hsg2⟩ := ih (wf.applyOp op) h1 hrest
      refine ⟨k2, by omega, ?_, hsg2⟩
      cases op with
      | add v =>
        rw [numAdds_cons, if_pos rfl]
        omega
      | remove h2 =>
        -- a remove never bumps an id, so the `k + 1` branch is impossible
        exfalso
        obtain ⟨hlt, hidg⟩ := hsg
        obtain ⟨hlt2, hidg2⟩ := h1
        simp only [applyOp] at hidg2
        revert hidg2
        split
        · rename_i hg
          rw [remove_sp_id wf hg hlt, hidg]
          intro hidg2
          have hidlt := wf.id_lt _ hlt
          simp only [ID_MOD] at hidg hidg2 hidlt
          omega
        · rw [hidg]
          intro hidg2
          have hidlt := wf.id_lt _ hlt
          simp only [ID_MOD] at hidg hidg2 hidlt
          omega
      | clear => exact absurd rfl hop

theorem slotGenFree_runFrom [Inhabited α] {m : DenseMap α} (wf : WF m)
    {h k : Nat} (hsf : SlotGenFree m h k) {ops : List (Op α)}
    (hnc : noClear ops = true) :
    ∃ k2, k ≤ k2 ∧ k2 ≤ k + numAdds ops ∧
      SlotGenFree (runFrom m ops) h k2 := by
  induction ops generalizing m k with
  | nil => exact ⟨k, Nat.le_refl k, by simp [numAdds], hsf⟩
  | cons op rest ih =>
    obtain ⟨hop, hrest⟩ := noClear_cons hnc
    rcases slotGenFree_applyOp wf hsf op hop with h1 | ⟨⟨v, hv⟩, h1⟩
    · obtain ⟨k2, ha, hb, hsf2⟩ := ih (wf.applyOp op) h1 hrest
      refine ⟨k2, ha, ?_, hsf2⟩
      rw [numAdds_cons]
      split <;> omega
    · obtain ⟨k2, ha, hb, hsf2⟩ := ih (wf.applyOp op) h1 hrest
      refine ⟨k2, by omega, ?_, hsf2⟩
      subst hv
      rw [numAdds_cons, if_pos rfl]
      omega

/-- A tracked slot whose generation has advanced by fewer than `2^16` bumps
since `h` was current (and which is still free if it has not advanced at all)
rejects `h`. -/
theorem has_false_of_slotGenFree [Inhabited α] {m : DenseMap α} (wf : WF m)
    {h k : Nat} (hlt : h < ID_MOD) (hsf : SlotGenFree m h k)
    (hk : k < 65536) : has m h = false := by
  obtain ⟨⟨hslt, hidg⟩, hfree⟩ := hsf
  rcases Nat.eq_zero_or_pos k with hk0 | hkpos
  · rw [← Bool.not_eq_true]
    intro hc
    obtain ⟨-, -, hne⟩ := (has_iff m h).mp hc
    exact hne (hfree hk0)
  · rw [← Bool.not_eq_true]
    intro hc
    obtain ⟨-, hid, -⟩ := (has_iff m h).mp hc
    rw [hidg] at hid
    simp only [ID_MOD] at hid hlt
    omega

/-- Right after `add` issues `h`, the slot's stored id is exactly `h`. -/
theorem slotGen_after_add [Inhabited α] {m : DenseMap α} (wf : WF m)
    (hg : m.denseArray.length < INDEX_MASK) (v : α) :
    SlotGen (add m v).2 (add m v).1 0 := by
  obtain ⟨hlt, hid, -⟩ := (has_iff _ _).mp (has_add_new wf hg v)
  refine ⟨hlt, ?_⟩
  rw [hid]
  have := add_handle_lt m v
  simp only [Nat.zero_mul, Nat.add_zero]
  exact (Nat.mod_eq_of_lt this).symm

/-- A tracked slot that currently rejects `h` satisfies the strengthened
invariant: either its generation moved, or it is still free. -/
theorem slotGenFree_of_not_has [Inhabited α] {m : DenseMap α} (wf : WF m)
    {h k : Nat} (hlt : h < ID_MOD) (hsg : SlotGen m h k)
    (hnot : has m h = false) : SlotGenFree m h k := by
  refine ⟨hsg, fun hk0 => ?_⟩
  obtain ⟨hslt, hidg⟩ := hsg
  rw [hk0] at hidg
  simp only [Nat.zero_mul, Nat.add_zero] at hidg
  by_contra hne
  have : has m h = true :=
    (has_iff m h).mpr ⟨hslt, by rw [hidg]; exact Nat.mod_eq_of_lt hlt, hne⟩
  rw [this] at hnot
  cases hnot

/-! ### A concrete wrap-around trace

`wrapOps n` removes and re-adds the element in slot 0 `n` times; each cycle
bumps slot 0's generation by one, so after `2^16` cycles the slot's id wraps
back to the very first handle's value. -/

def wrapOps (n : Nat) : List (Op Nat) :=
  (List.range n).flatMap fun i =>
    [Op.remove (((i + 1) * 65536) % ID_MOD), Op.add 0]

/-- Closed form of the state reached by `add 10` followed by `wrapOps n`. -/
def wrapState (n : Nat) : DenseMap Nat :=
  ⟨[⟨if n = 0 then 10 else 0, ((n + 1) * 65536) % ID_MOD⟩],
   [⟨((n + 1) * 65536) % ID_MOD, 0, 65535⟩], 65535⟩

theorem runFrom_append [Inhabited α] (m : DenseMap α) (l1 l2 : List (Op α)) :
    runFrom m (l1 ++ l2) = runFrom (runFrom m l1) l2 :=
  List.foldl_append _ _ _ _

theorem run_wrapOps (n : Nat) : run (Op.add 10 :: wrapOps n) = wrapState n := by
  induction n with
  | zero => decide
  | succ n ih =>
    have hsplit : wrapOps (n + 1) =
        wrapOps n ++ [Op.remove (((n + 1) * 65536) % ID_MOD), Op.add 0] := by
      simp [wrapOps, List.range_succ]
    have hmod : ((n + 1) * 65536) % ID_MOD % 65536 = 0 := by
      rw [Nat.mod_mod_of_dvd _ dvd_id_mod]
      exact Nat.mul_mod_left _ _
    have hrun : run (Op.add 10 :: wrapOps (n + 1)) =
        runFrom (wrapState n) [Op.remove (((n + 1) * 65536) % ID_MOD), Op.add 0] := by
      show runFrom (empty Nat) _ = _
      rw [hsplit, show Op.add 10 :: (wrapOps n ++ _) =
        (Op.add 10 :: wrapOps n) ++ [Op.remove (((n + 1) * 65536) % ID_MOD),
          Op.add 0] from rfl, runFrom_append, ← ih]
      rfl
    rw [hrun]
    have hhas : has (wrapState n) (((n + 1) * 65536) % ID_MOD) = true := by
      refine (has_iff _ _).mpr ?_
      rw [hmod]
      refine ⟨by simp [wrapState], ?_, ?_⟩ <;>
        simp [wrapState, sp, INDEX_MASK]
    have hcase : ((wrapState n).sparseIndices.getD
        ((((n + 1) * 65536) % ID_MOD) % 65536) default).index =
        (wrapState n).denseArray.length - 1 := by
      rw [hmod]
      simp [wrapState]
    have hstep1 : applyOp (wrapState n) (Op.remove (((n + 1) * 65536) % ID_MOD)) =
        ⟨[], [⟨((n + 1) * 65536) % ID_MOD, 65535, 65535⟩], 0⟩ := by
      simp only [applyOp]
      rw [if_pos hhas, remove_noswap _ _ hcase, hmod]
      simp [wrapState, INDEX_MASK]
    have hstep2 : applyOp
        (⟨[], [⟨((n + 1) * 65536) % ID_MOD, 65535, 65535⟩], 0⟩ : DenseMap Nat)
        (Op.add 0) = wrapState (n + 1) := by
      simp only [applyOp]
      rw [if_pos (by norm_num [INDEX_MASK]),
        add_reuse _ _ (by norm_num [INDEX_MASK])]
      have harith : (((n + 1) * 65536) % ID_MOD + 65536) % ID_MOD =
          ((n + 1 + 1) * 65536) % ID_MOD := by
        rw [Nat.mod_add_mod]
        have : (n + 1) * 65536 + 65536 = (n + 1 + 1) * 65536 := by ring
        rw [this]
      simp [sp, wrapState, harith]
    show runFrom _ [_, _] = _
    rw [runFrom, List.foldl_cons, hstep1, List.foldl_cons, hstep2]
    rfl

/-! ### The ghost log's keys are distinct -/

/-- Strengthening of `GhostInv`: every logged handle is currently valid and
the logged handles are pairwise distinct. -/
def GhostStrong [Inhabited α] (m : DenseMap α) (A : List (Nat × α)) : Prop :=
  GhostInv m A ∧ (∀ p ∈ A, has m p.1 = true) ∧ (A.map Prod.fst).Nodup

theorem ghostStrong_step [Inhabited α] {m : DenseMap α} {A : List (Nat × α)}
    (hinv : GhostStrong m A) (op : Op α) :
    GhostStrong (stepBoth (m, A) op).1 (stepBoth (m, A) op).2 := by
  obtain ⟨hg1, hall, hnodup⟩ := hinv
  have wf := hg1.1
  refine ⟨ghostInv_step hg1 op, ?_⟩
  cases op with
  | add v =>
    by_cases hg : m.denseArray.length < INDEX_MASK
    · simp only [stepBoth, hg, if_true]
      refine ⟨?_, ?_⟩
      · intro p hp
        rcases List.mem_cons.mp hp with hp | hp
        · rw [hp]
          exact has_add_new wf hg v
        · have hne : p.1 ≠ (add m v).1 := by
            intro hc
            have := hall p hp
            rw [hc, has_add_not_before wf v] at this
            cases this
          rw [has_add_old wf hg v hne]
          exact hall p hp
      · simp only [List.map_cons]
        refine List.nodup_cons.mpr ⟨?_, hnodup⟩
        intro hc
        rw [List.mem_map] at hc
        obtain ⟨p, hp, hpe⟩ := hc
        have := hall p hp
        rw [hpe, has_add_not_before wf v] at this
        cases this
    · simp only [stepBoth, hg, if_false]
      exact ⟨hall, hnodup⟩
  | remove h =>
    by_cases hg : has m h = true
    · simp only [stepBoth, hg, if_true]
      refine ⟨?_, ?_⟩
      · intro p hp
        rw [List.mem_filter] at hp
        obtain ⟨hmem, hpne⟩ := hp
        have hne : p.1 ≠ h := by simpa using hpne
        rw [has_remove_other wf hg hne]
        exact hall p hmem
      · exact ((List.filter_sublist A).map Prod.fst).nodup hnodup
    · simp only [stepBoth, hg, if_false]
      exact ⟨hall, hnodup⟩
  | clear =>
    simp only [stepBoth]
    refine ⟨?_, by simp⟩
    intro p hp
    cases hp

theorem ghostStrong_runBoth [Inhabited α] (ops : List (Op α)) :
    GhostStrong (runBoth ops).1 (runBoth ops).2 := by
  suffices hgen : ∀ (p : DenseMap α × List (Nat × α)), GhostStrong p.1 p.2 →
      GhostStrong (ops.foldl stepBoth p).1 (ops.foldl stepBoth p).2 by
    refine hgen (empty α, []) ⟨⟨WF.empty α, ?_, ?_⟩, ?_, ?_⟩
    · intro h
      simp [has, empty, List.lookup]
    · intro h w hw
      cases hw
    · intro p hp
      cases hp
    · exact List.nodup_nil
  induction ops with
  | nil => exact fun p hp => hp
  | cons op rest ih =>
    intro p hp
    refine ih _ ?_
    have := ghostStrong_step hp op
    cases p
    exact this

/-! ### Claim theorems for the slot map -/

/-- C1 counterexample: the claim fails as stated.  Handle `65536` is issued
by the first `add`; after one remove/re-add cycle of slot 0 it is rejected
(`has` is false: the slot was removed and reused by a later `add`), but after
`2^16` such cycles the 16-bit generation counter wraps around and `has`
accepts the stale handle again — so `has(h)` does not stay false "from then
on" for every finite sequence of operations. -/
theorem C1_counterexample :
    (add (empty Nat) 10).1 = 65536 ∧
    has (run (Op.add 10 :: wrapOps 1)) 65536 = false ∧
    has (run (Op.add 10 :: wrapOps 65536)) 65536 = true := by
  refine ⟨by decide, ?_, ?_⟩
  · rw [run_wrapOps]
    decide
  · rw [run_wrapOps]
    decide

/-- C1 amended: (i) the issuance log of any trace has pairwise-distinct
currently-valid handles, (ii) two simultaneously-valid handles that agree on
their home slot are the same handle (so distinct valid handles never compare
equal), and (iii) once a handle `h` issued by `add` has become invalid
(its slot removed, possibly reused), `has(h)` stays false across any further
`add`/`remove` operations as long as the total number of `add`s between `h`'s
issuance and the point of observation stays below `2^16` — the bound forced
by the 16-bit generation counter, which wraps after `2^16` reuses of the
slot. -/
theorem C1_handle_uniqueness_amended (ops0 ops1 ops2 : List (Op Nat)) (v : Nat) :
    (((runBoth ops0).2.map Prod.fst).Nodup ∧
      ∀ p ∈ (runBoth ops0).2, has (runBoth ops0).1 p.1 = true) ∧
    (∀ h1 h2 : Nat, has (run ops0) h1 = true → has (run ops0) h2 = true →
      h1 % 65536 = h2 % 65536 → h1 = h2) ∧
    ((run ops0).denseArray.length < INDEX_MASK →
      noClear ops1 = true → noClear ops2 = true →
      has (runFrom (add (run ops0) v).2 ops1) (add (run ops0) v).1 = false →
      numAdds ops1 + numAdds ops2 < 65536 →
      has (runFrom (runFrom (add (run ops0) v).2 ops1) ops2)
        (add (run ops0) v).1 = false) := by
  obtain ⟨-, hall, hnodup⟩ := ghostStrong_runBoth (α := Nat) ops0
  have wf0 : WF (run (α := Nat) ops0) := WF.run ops0
  refine ⟨⟨hnodup, hall⟩, ?_, ?_⟩
  · intro h1 h2 hh1 hh2 hlow
    obtain ⟨-, hid1, -⟩ := (has_iff _ _).mp hh1
    obtain ⟨-, hid2, -⟩ := (has_iff _ _).mp hh2
    rw [← hid1, ← hid2, hlow]
  · intro hg hnc1 hnc2 hfalse hbound
    have wf1 : WF (add (run (α := Nat) ops0) v).2 := wf0.add v hg
    have hhlt : (add (run (α := Nat) ops0) v).1 < ID_MOD := add_handle_lt _ v
    have hanchor := slotGen_after_add wf0 hg v
    obtain ⟨k1, -, hk1b, hsg1⟩ := slotGen_runFrom wf1 hanchor hnc1
    have wf2 : WF (runFrom (add (run (α := Nat) ops0) v).2 ops1) :=
      wf1.runFrom ops1
    have hsf1 : SlotGenFree (runFrom (add (run (α := Nat) ops0) v).2 ops1)
        (add (run (α := Nat) ops0) v).1 k1 :=
      slotGenFree_of_not_has wf2 hhlt hsg1 hfalse
    obtain ⟨k2, -, hk2b, hsf2⟩ := slotGenFree_runFrom wf2 hsf1 hnc2
    exact has_false_of_slotGenFree (wf2.runFrom ops2) hhlt hsf2 (by omega)

/-- C1 amended witness: a concrete trace.  `add 10` on a fresh map, then
`add 20` issues handle `65537` (slot 1); removing it and adding `30` reuses
slot 1, and after one more `add` the stale handle `65537` is still
rejected. -/
theorem C1_handle_uniqueness_amended_witness :
    ((((runBoth [Op.add 10]).2.map Prod.fst).Nodup ∧
      ∀ p ∈ (runBoth [Op.add 10]).2, has (runBoth [Op.add 10]).1 p.1 = true) ∧
      (65536 = 65536) ∧
      has (runFrom (runFrom (add (run [Op.add 10]) 20).2
          [Op.remove 65537, Op.add 30]) [Op.add 40])
        (add (run [Op.add 10]) 20).1 = false) := by
  have hmain := C1_handle_uniqueness_amended [Op.add 10]
    [Op.remove 65537, Op.add 30] [Op.add 40] 20
  refine ⟨hmain.1, ?_, ?_⟩
  · exact hmain.2.1 65536 65536 (by decide) (by decide) rfl
  · exact hmain.2.2 (by decide) (by decide) (by decide) (by decide) (by decide)

/-- C2 counterexample: handle `65536` is issued by `add 10` before the
`clear`; after the `clear` a fresh `add 20` recreates slot 0 with a restarted
generation counter and re-issues the very same id, so `has` accepts the
pre-clear handle again.  Invalidation by `clear` is therefore not permanent
under subsequent operations. -/
theorem C2_counterexample :
    (add (empty Nat) 10).1 = 65536 ∧
    has (run [Op.add 10, Op.clear, Op.add 20]) 65536 = true := by
  decide

/-- C2 amended: immediately after `clear()` every handle is invalid (`has`
returns false for every handle whatsoever) and the internal state is emptied;
however, handles issued before the `clear` are not permanently dead — after
subsequent `add`s the restarted generation counters can re-issue the same
32-bit ids, which `has` then accepts (see the counterexample). -/
theorem C2_clear_invalidates_amended (α : Type) [Inhabited α]
    (m : DenseMap α) (h : Nat) :
    has (clear m) h = false ∧ (clear m).denseArray = [] ∧
    (clear m).sparseIndices = [] ∧ (clear m).nextSparse = INDEX_MASK :=
  ⟨has_clear m h, rfl, rfl, rfl⟩

/-- C3: in every reachable state each sparse slot's id keeps its own position
as its low 16 bits (so a handle's low 16 bits are its home slot, fixed for
the slot's lifetime); a fresh `add` returns a handle whose low 16 bits are
exactly the position of the slot it used and stores that handle in the slot;
and when `add` reuses a free slot the new handle equals the slot's previous
id plus `0x1_0000` in 32-bit arithmetic — the generation field in bits
[16:32) increments by exactly one (mod `2^16`). -/
theorem C3_handle_encoding (ops : List (Op Nat)) (v : Nat) :
    (∀ s, s < (run ops).sparseIndices.length →
      (sp (run ops) s).id % 65536 = s) ∧
    ((run ops).denseArray.length < INDEX_MASK →
      (add (run ops) v).1 % 65536 = addPos (run ops) ∧
      (sp (add (run ops) v).2 (addPos (run ops))).id = (add (run ops) v).1 ∧
      ((run ops).nextSparse ≠ INDEX_MASK →
        (add (run ops) v).1 =
          ((sp (run ops) (run ops).nextSparse).id + 65536) % ID_MOD ∧
        (add (run ops) v).1 / 65536 =
          ((sp (run ops) (run ops).nextSparse).id / 65536 + 1) % 65536)) := by
  have wf : WF (run (α := Nat) ops) := WF.run ops
  refine ⟨wf.id_low, fun hg => ⟨add_handle_low wf v, (add_sp_pos wf hg v).1,
    fun hns => ⟨?_, ?_⟩⟩⟩
  · rw [add_reuse _ v hns]
  · rw [add_reuse _ v hns]
    have hidlt : (sp (run (α := Nat) ops) (run (α := Nat) ops).nextSparse).id <
        ID_MOD := wf.id_lt _ (by simpa [addPos, hns] using addPos_lt_reuse wf hns)
    simp only [ID_MOD] at hidlt ⊢
    omega

/-- C3 witness: on the trace `add 10; remove 65536` slot 0 is free with
previous id `65536` (generation 1); re-adding returns
`65536 + 0x1_0000 = 131072`, generation 2, same low 16 bits. -/
theorem C3_handle_encoding_witness :
    (sp (run [Op.add 10, Op.remove 65536]) 0).id % 65536 = 0 ∧
    (add (run [Op.add 10, Op.remove 65536]) 20).1 % 65536 =
      addPos (run [Op.add 10, Op.remove 65536]) ∧
    (add (run [Op.add 10, Op.remove 65536]) 20).1 =
      ((sp (run [Op.add 10, Op.remove 65536])
        (run [Op.add 10, Op.remove 65536]).nextSparse).id + 65536) % ID_MOD ∧
    (add (run [Op.add 10, Op.remove 65536]) 20).1 / 65536 =
      ((sp (run [Op.add 10, Op.remove 65536])
        (run [Op.add 10, Op.remove 65536]).nextSparse).id / 65536 + 1) % 65536 := by
  have hmain := C3_handle_encoding [Op.add 10, Op.remove 65536] 20
  have h2 := hmain.2 (by decide)
  exact ⟨hmain.1 0 (by decide), h2.1, (h2.2.2 (by decide)).1, (h2.2.2 (by decide)).2⟩

/-- C4 counterexample: a default-constructed `DenseMapHandle` is
`dense_map::INDEX_MASK = 0xFFFF` (the 16-bit mask), not `0xFFFF_FFFF` as the
claim states. -/
theorem C4_counterexample :
    DenseMapHandle.make.id_index = 65535 ∧
    DenseMapHandle.make.id_index ≠ 4294967295 := by
  decide

/-- C4 amended: the reserved sentinel is `0xFFFF` (stored as `0x0000_FFFF` in
the 32-bit id).  A default-constructed handle equals it, `isValid()` is false
for it, `has()` rejects it in every reachable map state, and `add` never
returns a handle with low 16 bits `0xFFFF` — in particular it never returns
`0xFFFF` or `0xFFFF_FFFF`. -/
theorem C4_sentinel_amended (ops : List (Op Nat)) (v : Nat) :
    DenseMapHandle.make.id_index = INDEX_MASK ∧
    DenseMapHandle.make.isValid = false ∧
    has (run ops) 65535 = false ∧
    ((run ops).denseArray.length < INDEX_MASK →
      (add (run ops) v).1 % 65536 ≠ 65535 ∧
      (add (run ops) v).1 ≠ 65535 ∧ (add (run ops) v).1 ≠ 4294967295) := by
  have wf : WF (run (α := Nat) ops) := WF.run ops
  refine ⟨rfl, rfl, ?_, fun hg => ?_⟩
  · rw [← Bool.not_eq_true]
    intro hc
    obtain ⟨hlt, -, -⟩ := (has_iff _ _).mp hc
    have := wf.sparse_le
    simp only [INDEX_MASK] at this hlt
    omega
  · have hlow := add_handle_low wf v
    have hpos : addPos (run (α := Nat) ops) ≠ 65535 := by
      by_cases hns : (run (α := Nat) ops).nextSparse = INDEX_MASK
      · have hfb := wf.fresh_bound hns
        simp only [addPos, hns, ne_eq, not_true_eq_false, if_false]
        simp only [INDEX_MASK] at hg
        omega
      · have := addPos_lt_reuse wf hns
        have := wf.sparse_le
        simp only [INDEX_MASK] at *
        omega
    refine ⟨by rw [hlow]; exact hpos, ?_, ?_⟩
    · intro hc
      rw [hc] at hlow
      apply hpos
      rw [← hlow]
    · intro hc
      rw [hc] at hlow
      apply hpos
      rw [← hlow]

/-- C4 amended witness: instantiated on the empty trace. -/
theorem C4_sentinel_amended_witness :
    DenseMapHandle.make.id_index = INDEX_MASK ∧
    DenseMapHandle.make.isValid = false ∧
    has (run ([] : List (Op Nat))) 65535 = false ∧
    ((add (run ([] : List (Op Nat))) 10).1 % 65536 ≠ 65535 ∧
      (add (run ([] : List (Op Nat))) 10).1 ≠ 65535 ∧
      (add (run ([] : List (Op Nat))) 10).1 ≠ 4294967295) := by
  have hmain := C4_sentinel_amended [] 10
  exact ⟨hmain.1, hmain.2.1, hmain.2.2.1, hmain.2.2.2 (by decide)⟩

/-- C5: after any finite sequence of guarded `add`/`remove`/`clear`
operations, the dense array's length equals the number of 32-bit handle
values `has` accepts, and each dense position is the payload of exactly one
currently-valid handle (the handle routed to it through the sparse
redirect, whose `find` yields that entry's data). -/
theorem C5_density (ops : List (Op Nat)) :
    (Finset.filter (fun h => has (run ops) h = true)
      (Finset.range ID_MOD)).card = (run ops).denseArray.length ∧
    ∀ i, i < (run ops).denseArray.length →
      ∃! h : Nat, has (run ops) h = true ∧
        (sp (run ops) (h % 65536)).index = i ∧
        find? (run ops) h = some ((dn (run ops) i).data) := by
  have wf : WF (run (α := Nat) ops) := WF.run ops
  refine ⟨valid_card wf, fun i hi => ?_⟩
  obtain ⟨hs, hidx⟩ := wf.dense_inv i hi
  obtain ⟨hspid, hidlt⟩ := wf.dense_id hi
  have hlow : (dn (run (α := Nat) ops) i).id % 65536 % 65536 =
      (dn (run (α := Nat) ops) i).id % 65536 := Nat.mod_mod_of_dvd _ ⟨1, rfl⟩
  have hhas : has (run (α := Nat) ops) ((dn (run (α := Nat) ops) i).id) = true :=
    (has_iff_dense wf _).mpr ⟨i, hi, rfl⟩
  refine ⟨(dn (run (α := Nat) ops) i).id, ⟨hhas, by rw [hidx], ?_⟩, ?_⟩
  · rw [find?_of_has wf hhas, hidx]
  · rintro h2 ⟨hh2, hidx2, -⟩
    obtain ⟨hlt2, hid2, hne2⟩ := (has_iff _ _).mp hh2
    obtain ⟨-, hidm2⟩ := wf.occ _ hlt2 hne2
    rw [hidx2] at hidm2
    rw [← hid2, ← hidm2]

/-- C5 witness: after a single `add 10` the map holds exactly one valid
handle and position 0 belongs to exactly one handle. -/
theorem C5_density_witness :
    (Finset.filter (fun h => has (run [Op.add 10]) h = true)
      (Finset.range ID_MOD)).card = (run [Op.add 10]).denseArray.length ∧
    ∃! h : Nat, has (run [Op.add 10]) h = true ∧
      (sp (run [Op.add 10]) (h % 65536)).index = 0 ∧
      find? (run [Op.add 10]) h = some ((dn (run [Op.add 10]) 0).data) := by
  have hmain := C5_density [Op.add 10]
  exact ⟨hmain.1, hmain.2 0 (by decide)⟩

/-- C6: along any trace, the ghost log pairs each currently-valid handle with
the value passed to the `add` that issued it; validity of `h` coincides with
membership of `h` in the log, and whenever `h` is valid, `find` returns
exactly the logged (most recently associated) value — even after arbitrary
interleaved removals relocated dense entries. -/
theorem C6_round_trip (ops : List (Op Nat)) (h v : Nat) :
    (has (runBoth ops).1 h = true ↔
      (((runBoth ops).2.lookup h).isSome = true)) ∧
    ((runBoth ops).2.lookup h = some v → find? (runBoth ops).1 h = some v) ∧
    (runBoth ops).1 = run ops := by
  obtain ⟨-, hkeys, hval⟩ := ghostInv_runBoth (α := Nat) ops
  exact ⟨hkeys h, hval h v, runBoth_fst ops⟩

/-- C6 witness: after `add 10; add 20`, handle `65536` is valid, is logged
with value `10`, and `find` returns `10` for it. -/
theorem C6_round_trip_witness :
    has (runBoth [Op.add 10, Op.add 20]).1 65536 = true ∧
    find? (runBoth [Op.add 10, Op.add 20]).1 65536 = some 10 := by
  have hmain := C6_round_trip [Op.add 10, Op.add 20] 65536 10
  exact ⟨hmain.1.mpr (by decide), hmain.2.1 (by decide)⟩

/-- C7: the concrete scenario.  On a fresh map, `add 10` returns
`h1 = 65536` (slot 0, generation 1); `add 20` returns `h2 = 65537` (slot 1);
after `remove h1`, `add 30` returns `h3 = 131072` (slot 0, generation 2,
`h3 ≠ h1`); then `has h1` is false, `has h3` is true and `find h3 = 30`.
(`reserve` only preallocates capacity and has no observable effect here.) -/
theorem C7_concrete_scenario :
    (add (empty Nat) 10).1 = 65536 ∧
    65536 % 65536 = 0 ∧ 65536 / 65536 = 1 ∧
    (add (add (empty Nat) 10).2 20).1 = 65537 ∧ 65537 % 65536 = 1 ∧
    (add (remove (add (add (empty Nat) 10).2 20).2 65536) 30).1 = 131072 ∧
    131072 % 65536 = 0 ∧ 131072 / 65536 = 2 ∧ (131072 : Nat) ≠ 65536 ∧
    has (add (remove (add (add (empty Nat) 10).2 20).2 65536) 30).2 65536
      = false ∧
    has (add (remove (add (add (empty Nat) 10).2 20).2 65536) 30).2 131072
      = true ∧
    find? (add (remove (add (add (empty Nat) 10).2 20).2 65536) 30).2 131072
      = some 30 := by
  decide

end SlotMap

/-! ## Pool allocator compile-time layout (`bf_pool_allocator.hpp`) -/

namespace PoolAlloc

/-- `detail::aligned_size<size_of_t, alignment>()`:
`((size_of_t + alignment - 1) / alignment) * alignment`. -/
def aligned_size (size_of_t alignment : Nat) : Nat :=
  ((size_of_t + alignment - 1) / alignment) * alignment

/-- `static_max<a, b>::value`. -/
def static_max (a b : Nat) : Nat := if a ≥ b then a else b

/-- `PoolAllocator<T, N>::alignment_req = static_max<alignof(T),
alignof(PoolHeader)>::value`; `alignofHeader` is the pointer alignment of the
embedded `PoolHeader` free-list pointer. -/
def alignment_req (alignofT alignofHeader : Nat) : Nat :=
  static_max alignofT alignofHeader

/-- `PoolAllocator<T, N>::allocation_size = static_max<sizeof(T),
header_size>::value` where `header_size = sizeof(PoolHeader)`. -/
def allocation_size (sizeofT headerSize : Nat) : Nat :=
  static_max sizeofT headerSize

/-- `PoolAllocator<T, N>::pool_stride =
aligned_size<allocation_size, alignment_req>()`. -/
def pool_stride (sizeofT alignofT headerSize alignofHeader : Nat) : Nat :=
  aligned_size (allocation_size sizeofT headerSize)
    (alignment_req alignofT alignofHeader)

/-- `PoolAllocator<T, N>::memory_block_size = pool_stride * num_elements`. -/
def memory_block_size (sizeofT alignofT headerSize alignofHeader n : Nat) : Nat :=
  pool_stride sizeofT alignofT headerSize alignofHeader * n

/-- `aligned_size x A` is the least multiple of `A` that is at least `x`. -/
theorem aligned_size_spec (x A : Nat) (hA : 0 < A) :
    x ≤ aligned_size x A ∧ A ∣ aligned_size x A ∧
      ∀ k, x ≤ k → A ∣ k → aligned_size x A ≤ k := by
  have hceil : aligned_size x A = (x ⌈/⌉ A) * A := rfl
  refine ⟨?_, ⟨(x + A - 1) / A, Nat.mul_comm _ _⟩, ?_⟩
  · rw [hceil]
    have := le_smul_ceilDiv (α := ℕ) (β := ℕ) hA (b := x)
    simpa [smul_eq_mul, Nat.mul_comm] using this
  · rintro k hxk ⟨t, ht⟩
    subst ht
    rw [hceil]
    have h1 : x ⌈/⌉ A ≤ t := (ceilDiv_le_iff_le_mul hA).mpr hxk
    calc (x ⌈/⌉ A) * A ≤ t * A := Nat.mul_le_mul_right A h1
    _ = A * t := Nat.mul_comm t A

end PoolAlloc

namespace PoolAlloc

/-- C8: provided `sizeof(T) ≥ 1` (always true in C++) and
`sizeof(PoolHeader) ≤ max(alignof(T), alignof(PoolHeader))` (true whenever
the single-pointer pool header has `sizeof = alignof`, as on every supported
platform), `pool_stride` equals `sizeof(T)` rounded up to the nearest
multiple of the maximum of `alignof(T)` and the pointer alignment — stated
as: it is the least multiple of that maximum which is `≥ sizeof(T)` — and
`memory_block_size` is `pool_stride * N`. -/
theorem C8_pool_stride (s a P p n : Nat) (hs : 0 < s) (hp : 0 < p)
    (hP : P ≤ static_max a p) :
    (s ≤ pool_stride s a P p ∧
     static_max a p ∣ pool_stride s a P p ∧
     (∀ k, s ≤ k → static_max a p ∣ k → pool_stride s a P p ≤ k)) ∧
    memory_block_size s a P p n = pool_stride s a P p * n := by
  have hA : 0 < static_max a p := by
    unfold static_max
    split <;> omega
  obtain ⟨h1, h2, h3⟩ := aligned_size_spec (allocation_size s P) (static_max a p) hA
  have hsle : s ≤ allocation_size s P := by
    unfold allocation_size static_max
    split <;> omega
  refine ⟨⟨Nat.le_trans hsle h1, h2, ?_⟩, rfl⟩
  intro k hk hdvd
  refine h3 k ?_ hdvd
  have hAk : static_max a p ≤ k := by
    obtain ⟨t, ht⟩ := hdvd
    rcases Nat.eq_zero_or_pos t with h0 | h0
    · rw [h0, Nat.mul_zero] at ht
      omega
    · rw [ht]
      exact Nat.le_mul_of_pos_right _ h0
  have hPk : P ≤ k := Nat.le_trans hP hAk
  unfold allocation_size static_max
  split <;> omega

/-- C8 witness: `T` with size 12 and alignment 4, an 8-byte pointer header:
the stride is 16 = the least multiple of 8 that is ≥ 12, and a 16-element
pool occupies `16 * 16` bytes. -/
theorem C8_pool_stride_witness :
    (12 ≤ pool_stride 12 4 8 8 ∧
     static_max 4 8 ∣ pool_stride 12 4 8 8 ∧
     pool_stride 12 4 8 8 ≤ 16) ∧
    memory_block_size 12 4 8 8 16 = pool_stride 12 4 8 8 * 16 := by
  have hmain := C8_pool_stride 12 4 8 8 16 (by decide) (by decide) (by decide)
  exact ⟨⟨hmain.1.1, hmain.1.2.1,
    hmain.1.2.2 16 (by decide) (by decide)⟩, hmain.2⟩

end PoolAlloc

/-! ## The templated array API of `IMemoryManager` (`bf_imemory_manager.hpp`) -/

namespace ArrayApi

/-- `IMemoryManager::ArrayHeader`: `{size, alignment}`, stored in front of
every array-API allocation. -/
structure ArrayHeader where
  size : Nat
  alignment : Nat
  deriving DecidableEq

/-- The heap visible through the array API.  `blocks` maps addresses to
header-plus-contents records; element cells are `Option`-valued so that
uninitialized storage (`none`) is distinguished from constructed elements
(`some _`).  `budget` abstracts the underlying strategy's remaining capacity
(allocator failure is a `none` result), and `allocCalls` counts every
invocation of the underlying `allocate`. -/
structure Heap (α : Type) where
  blocks : List (Nat × ArrayHeader × List (Option α))
  nextAddr : Nat
  budget : Nat
  allocCalls : Nat
  deriving DecidableEq

/-- Modelled from the spec: the private `IMemoryManager::allocateAligned`
(and the header placement done through `grabHeader`) is declared in
`bf_imemory_manager.hpp` but implemented in a translation unit that is not
part of the snapshot.  Per the spec, aligned allocation over-allocates to
place a header record before the returned pointer and signals failure by a
null result; it is modelled as: count the underlying allocate call, and if
the request fits the remaining capacity hand out a fresh address holding an
uninitialized header and `n` uninitialized cells, else return `none`. -/
def allocateAlignedH (hp : Heap α) (n alignment : Nat) : Option Nat × Heap α :=
  if n ≤ hp.budget then
    (some hp.nextAddr,
     { blocks := (hp.nextAddr, ⟨0, alignment⟩, List.replicate n none) :: hp.blocks,
       nextAddr := hp.nextAddr + 1,
       budget := hp.budget - n,
       allocCalls := hp.allocCalls + 1 })
  else
    (none, { hp with allocCalls := hp.allocCalls + 1 })

/-- `grabHeader` (read side): the header stored at address `p`. -/
def grabHeader? (hp : Heap α) (p : Nat) : Option ArrayHeader :=
  (hp.blocks.find? fun b => b.1 == p).map fun b => b.2.1

/-- The element cells stored at address `p`. -/
def contents? (hp : Heap α) (p : Nat) : Option (List (Option α)) :=
  (hp.blocks.find? fun b => b.1 == p).map fun b => b.2.2

/-- `grabHeader` (write side): overwrite the header at address `p`. -/
def setHeader (hp : Heap α) (p : Nat) (hd : ArrayHeader) : Heap α :=
  { hp with blocks := hp.blocks.map fun b =>
      if b.1 = p then (b.1, hd, b.2.2) else b }

/-- Overwrite the element cells at address `p`. -/
def setContents (hp : Heap α) (p : Nat) (xs : List (Option α)) : Heap α :=
  { hp with blocks := hp.blocks.map fun b =>
      if b.1 = p then (b.1, b.2.1, xs) else b }

/-- Modelled from the spec like `allocateAlignedH`: `deallocateAligned`
removes the block and returns its capacity (the header's recorded element
count) to the budget. -/
def freeBlock (hp : Heap α) (p : Nat) : Heap α :=
  { hp with blocks := hp.blocks.filter fun b => b.1 != p,
            budget := hp.budget +
              (match grabHeader? hp p with | some hd => hd.size | none => 0) }

/-- `IMemoryManager::allocateArrayTrivial`: reject a zero count without
calling the allocator; otherwise allocate and, on success, record
`{size = num_elements, alignment}` in the header. -/
def allocateArrayTrivial (hp : Heap α) (n align : Nat) : Option Nat × Heap α :=
  if n ≠ 0 then
    match allocateAlignedH hp n align with
    | (some p, hp1) => (some p, setHeader hp1 p ⟨n, align⟩)
    | (none, hp1) => (none, hp1)
  else
    (none, hp)

/-- `IMemoryManager::allocateArray`: as `allocateArrayTrivial`, but on
success default-construct every element. -/
def allocateArray [Inhabited α] (hp : Heap α) (n align : Nat) :
    Option Nat × Heap α :=
  if n ≠ 0 then
    match allocateArrayTrivial hp n align with
    | (some p, hp1) => (some p, setContents hp1 p (List.replicate n (some default)))
    | (none, hp1) => (none, hp1)
  else
    (none, hp)

/-- `IMemoryManager::deallocateArray`: freeing null is a no-op; otherwise
destroy the `header->size` elements and free header plus payload. -/
def deallocateArray (hp : Heap α) (p? : Option Nat) : Heap α :=
  match p? with
  | none => hp
  | some p =>
    match grabHeader? hp p with
    | some _ => freeBlock hp p
    | none => hp

/-- `IMemoryManager::arrayResize`, translated clause by clause.  The two
construction loops of the grow path (move-construct the old `old_size`
elements, then default-construct the tail) are expressed as one contents
update; the old array is freed in between exactly as in the source. -/
def arrayResize [Inhabited α] (hp : Heap α) (old? : Option Nat) (n align : Nat) :
    Option Nat × Heap α :=
  match old? with
  | none => allocateArray hp n align
  | some old =>
    if n = 0 then
      (none, deallocateArray hp (some old))
    else
      match grabHeader? hp old with
      | none => (none, hp)
      | some hd =>
        if n > hd.size then
          match allocateArrayTrivial hp n align with
          | (some newp, hp1) =>
            let oldData := (contents? hp1 old).getD []
            let hp2 := setContents hp1 newp
              (oldData.take hd.size ++ List.replicate (n - hd.size) (some default))
            (some newp, deallocateArray hp2 (some old))
          | (none, hp1) => (none, hp1)
        else
          (some old, hp)

/-- Every block's address lies below the allocation frontier. -/
def HeapWF (hp : Heap α) : Prop :=
  ∀ b ∈ hp.blocks, b.1 < hp.nextAddr

end ArrayApi

namespace ArrayApi

theorem map_ite_id {α : Type} {l : List (Nat × ArrayHeader × List (Option α))}
    (p : Nat) (g : Nat × ArrayHeader × List (Option α) →
      Nat × ArrayHeader × List (Option α))
    (hne : ∀ b ∈ l, b.1 ≠ p) :
    (l.map fun b => if b.1 = p then g b else b) = l := by
  induction l with
  | nil => rfl
  | cons b rest ih =>
    rw [List.map_cons, if_neg (hne b (List.mem_cons_self ..)),
      ih fun c hc => hne c (List.mem_cons_of_mem _ hc)]

/-- C10: a zero-length array request returns null and leaves the allocator
completely untouched — in particular the underlying `allocate` is never
invoked (the call counter is unchanged) — while a request the underlying
allocator cannot satisfy also returns null (after one `allocate` call), so
at the public interface the two cases return the same null result. -/
theorem C10_zero_length_array {α : Type} [Inhabited α] (hp : Heap α)
    (align n : Nat) :
    allocateArray hp 0 align = (none, hp) ∧
    allocateArrayTrivial hp 0 align = (none, hp) ∧
    (allocateArray hp 0 align).2.allocCalls = hp.allocCalls ∧
    (0 < n → hp.budget < n →
      (allocateArrayTrivial hp n align).1 = none ∧
      (allocateArrayTrivial hp n align).2.allocCalls = hp.allocCalls + 1) := by
  refine ⟨by simp [allocateArray], by simp [allocateArrayTrivial], ?_, ?_⟩
  · simp [allocateArray]
  · intro hn hb
    have h1 : ¬ n ≤ hp.budget := by omega
    simp [allocateArrayTrivial, allocateAlignedH, h1, Nat.pos_iff_ne_zero.mp hn]

/-- C10 witness: a concrete empty heap with capacity 5; a zero-length
request is rejected without touching the allocator, and an oversized request
(7 elements) is likewise rejected. -/
theorem C10_zero_length_array_witness :
    allocateArray (⟨[], 0, 5, 0⟩ : Heap Nat) 0 1 = (none, ⟨[], 0, 5, 0⟩) ∧
    allocateArrayTrivial (⟨[], 0, 5, 0⟩ : Heap Nat) 0 1 = (none, ⟨[], 0, 5, 0⟩) ∧
    (allocateArray (⟨[], 0, 5, 0⟩ : Heap Nat) 0 1).2.allocCalls = 0 ∧
    ((allocateArrayTrivial (⟨[], 0, 5, 0⟩ : Heap Nat) 7 1).1 = none ∧
     (allocateArrayTrivial (⟨[], 0, 5, 0⟩ : Heap Nat) 7 1).2.allocCalls = 0 + 1) := by
  have hmain := C10_zero_length_array (⟨[], 0, 5, 0⟩ : Heap Nat) 1 7
  exact ⟨hmain.1, hmain.2.1, hmain.2.2.1, hmain.2.2.2 (by decide) (by decide)⟩

/-- C9 counterexample: the claim fails as stated for a shrink.  Starting
from a heap holding one 3-element array at address 0 (as produced by
`allocateArray`), resizing it to the nonzero count 2 does **not** allocate
new storage, move elements, or free the old storage: the code's
`num_elements > old_size` test fails and the old pointer is returned with
the heap — including the stored header size 3 and the call counter —
completely unchanged. -/
theorem C9_counterexample :
    allocateArray (⟨[], 0, 10, 0⟩ : Heap Nat) 3 1 =
      (some 0, ⟨[(0, ⟨3, 1⟩, [some 0, some 0, some 0])], 1, 7, 1⟩) ∧
    arrayResize (⟨[(0, ⟨3, 1⟩, [some 0, some 0, some 0])], 1, 7, 1⟩ : Heap Nat)
      (some 0) 2 1 =
      (some 0, ⟨[(0, ⟨3, 1⟩, [some 0, some 0, some 0])], 1, 7, 1⟩) ∧
    grabHeader? (arrayResize
      (⟨[(0, ⟨3, 1⟩, [some 0, some 0, some 0])], 1, 7, 1⟩ : Heap Nat)
      (some 0) 2 1).2 0 = some ⟨3, 1⟩ ∧
    (arrayResize (⟨[(0, ⟨3, 1⟩, [some 0, some 0, some 0])], 1, 7, 1⟩ : Heap Nat)
      (some 0) 2 1).2.allocCalls = 1 := by
  refine ⟨?_, ?_, ?_, ?_⟩ <;> rfl

/-- C9 amended: `arrayResize` behaves as realloc.  With a null old pointer
it is `allocateArray`; with count 0 it frees the array and returns null;
with `0 < n ≤` the stored element count it returns the old array unchanged
(no allocation, no move, no free); only when `n` exceeds the stored count
does it allocate fresh storage, move the old elements over (the whole old
array is the overlapping prefix), default-construct the `n - old` tail,
free the old storage and return the new array — and if that allocation
fails it returns null leaving the old array intact. -/
theorem C9_array_resize_amended {α : Type} [Inhabited α] (hp : Heap α)
    (old n align : Nat) (hd : ArrayHeader) (xs : List (Option α)) :
    (arrayResize hp none n align = allocateArray hp n align) ∧
    (arrayResize hp (some old) 0 align = (none, deallocateArray hp (some old))) ∧
    (grabHeader? hp old = some hd → 0 < n → n ≤ hd.size →
      arrayResize hp (some old) n align = (some old, hp)) ∧
    (HeapWF hp → grabHeader? hp old = some hd → contents? hp old = some xs →
      hd.size < n → n ≤ hp.budget →
      (arrayResize hp (some old) n align).1 = some hp.nextAddr ∧
      grabHeader? (arrayResize hp (some old) n align).2 hp.nextAddr =
        some ⟨n, align⟩ ∧
      contents? (arrayResize hp (some old) n align).2 hp.nextAddr =
        some (xs.take hd.size ++ List.replicate (n - hd.size) (some default)) ∧
      grabHeader? (arrayResize hp (some old) n align).2 old = none) ∧
    (grabHeader? hp old = some hd → hd.size < n → hp.budget < n →
      (arrayResize hp (some old) n align).1 = none ∧
      grabHeader? (arrayResize hp (some old) n align).2 old = some hd) := by
  refine ⟨rfl, by simp [arrayResize], ?_, ?_, ?_⟩
  · intro hgrab hn hle
    simp only [arrayResize, if_neg (by omega : ¬ n = 0), hgrab]
    rw [if_neg (by omega)]
  · intro hwf hgrab hcont hlt hbud
    -- the old block exists, so its address is below the frontier
    have homem : old < hp.nextAddr := by
      unfold grabHeader? at hgrab
      rcases hfind : hp.blocks.find? (fun b => b.1 == old) with _ | b
      · rw [hfind] at hgrab
        cases hgrab
      · have hmem := List.mem_of_find?_eq_some hfind
        have hpred := List.find?_some hfind
        have : b.1 = old := by simpa using hpred
        rw [← this]
        exact hwf b hmem
    have hone : old ≠ hp.nextAddr := by omega
    have hneq : hp.nextAddr ≠ old := fun hc => hone hc.symm
    have hnz : ¬ n = 0 := by omega
    have htail : ∀ b ∈ hp.blocks, b.1 ≠ hp.nextAddr :=
      fun b hb => by have := hwf b hb; omega
    -- shape of the heap after the fresh allocation plus header write
    have halloc : allocateArrayTrivial hp n align =
        (some hp.nextAddr,
         ⟨(hp.nextAddr, ⟨n, align⟩, List.replicate n none) :: hp.blocks,
          hp.nextAddr + 1, hp.budget - n, hp.allocCalls + 1⟩) := by
      simp only [allocateArrayTrivial, allocateAlignedH, if_pos hbud,
        if_pos hnz, setHeader]
      rw [List.map_cons, if_pos rfl, map_ite_id _ _ htail]
    have hbeqfalse : (hp.nextAddr == old) = false :=
      beq_eq_false_iff_ne.mpr (Ne.symm hone)
    have hcont1 : contents?
        (⟨(hp.nextAddr, ⟨n, align⟩, List.replicate n none) :: hp.blocks,
          hp.nextAddr + 1, hp.budget - n, hp.allocCalls + 1⟩ : Heap α) old =
        some xs := by
      unfold contents? at hcont ⊢
      rw [List.find?_cons_of_neg _ (by simp [hneq])]
      exact hcont
    have hgrab1 : grabHeader?
        (⟨(hp.nextAddr, ⟨n, align⟩, List.replicate n none) :: hp.blocks,
          hp.nextAddr + 1, hp.budget - n, hp.allocCalls + 1⟩ : Heap α) old =
        some hd := by
      unfold grabHeader? at hgrab ⊢
      rw [List.find?_cons_of_neg _ (by simp [hneq])]
      exact hgrab
    simp only [arrayResize, if_neg hnz, hgrab, if_pos hlt, halloc, hcont1,
      Option.getD_some]
    -- the contents update only touches the fresh block
    have hset : setContents
        (⟨(hp.nextAddr, ⟨n, align⟩, List.replicate n none) :: hp.blocks,
          hp.nextAddr + 1, hp.budget - n, hp.allocCalls + 1⟩ : Heap α)
        hp.nextAddr (xs.take hd.size ++ List.replicate (n - hd.size) (some default)) =
        ⟨(hp.nextAddr, ⟨n, align⟩,
            xs.take hd.size ++ List.replicate (n - hd.size) (some default)) ::
            hp.blocks,
          hp.nextAddr + 1, hp.budget - n, hp.allocCalls + 1⟩ := by
      simp only [setContents]
      rw [List.map_cons, if_pos rfl, map_ite_id _ _ htail]
    rw [hset]
    have hgrab2 : grabHeader?
        (⟨(hp.nextAddr, ⟨n, align⟩,
            xs.take hd.size ++ List.replicate (n - hd.size) (some default)) ::
            hp.blocks, hp.nextAddr + 1, hp.budget - n, hp.allocCalls + 1⟩ :
          Heap α) old = some hd := by
      unfold grabHeader? at hgrab ⊢
      rw [List.find?_cons_of_neg _ (by simp [hneq])]
      exact hgrab
    have hfilter : ((hp.nextAddr, ⟨n, align⟩,
        xs.take hd.size ++ List.replicate (n - hd.size) (some default)) ::
        hp.blocks).filter (fun b => b.1 != old) =
        (hp.nextAddr, ⟨n, align⟩,
          xs.take hd.size ++ List.replicate (n - hd.size) (some default)) ::
          hp.blocks.filter (fun b => b.1 != old) := by
      rw [List.filter_cons_of_pos (by simp [hneq])]
    simp only [deallocateArray, hgrab2, freeBlock, hgrab2, hfilter]
    refine ⟨trivial, ?_, ?_, ?_⟩
    · unfold grabHeader?
      rw [List.find?_cons_of_pos _ (by simp)]
      rfl
    · unfold contents?
      rw [List.find?_cons_of_pos _ (by simp)]
      rfl
    · unfold grabHeader?
      rw [List.find?_cons_of_neg _ (by simp [hneq]),
        List.find?_eq_none.mpr (fun b hb => by
          rw [List.mem_filter] at hb
          simpa using hb.2)]
      rfl
  · intro hgrab hlt hbud
    have hnz : ¬ n = 0 := by omega
    have hfail : allocateArrayTrivial hp n align =
        (none, { hp with allocCalls := hp.allocCalls + 1 }) := by
      simp [allocateArrayTrivial, allocateAlignedH, hnz, (show ¬ n ≤ hp.budget by omega)]
    simp only [arrayResize, if_neg hnz, hgrab, if_pos hlt, hfail]
    exact ⟨trivial, hgrab⟩

/-- C9 amended witness: on the concrete one-array heap, shrinking to 2
returns the old array unchanged, while growing to 5 moves the three stored
elements into a fresh block at address 1, default-constructs two more, and
frees the old block. -/
theorem C9_array_resize_amended_witness :
    (arrayResize (⟨[(0, ⟨3, 1⟩, [some 0, some 0, some 0])], 1, 7, 1⟩ : Heap Nat)
        (some 0) 2 1 =
      (some 0, ⟨[(0, ⟨3, 1⟩, [some 0, some 0, some 0])], 1, 7, 1⟩)) ∧
    ((arrayResize (⟨[(0, ⟨3, 1⟩, [some 0, some 0, some 0])], 1, 7, 1⟩ : Heap Nat)
        (some 0) 5 1).1 = some 1 ∧
     grabHeader? (arrayResize
        (⟨[(0, ⟨3, 1⟩, [some 0, some 0, some 0])], 1, 7, 1⟩ : Heap Nat)
        (some 0) 5 1).2 1 = some ⟨5, 1⟩ ∧
     contents? (arrayResize
        (⟨[(0, ⟨3, 1⟩, [some 0, some 0, some 0])], 1, 7, 1⟩ : Heap Nat)
        (some 0) 5 1).2 1 =
       some ([some 0, some 0, some 0].take 3 ++ List.replicate (5 - 3) (some 0)) ∧
     grabHeader? (arrayResize
        (⟨[(0, ⟨3, 1⟩, [some 0, some 0, some 0])], 1, 7, 1⟩ : Heap Nat)
        (some 0) 5 1).2 0 = none) := by
  have h3 := (C9_array_resize_amended
    (⟨[(0, ⟨3, 1⟩, [some 0, some 0, some 0])], 1, 7, 1⟩ : Heap Nat)
    0 2 1 ⟨3, 1⟩ [some 0, some 0, some 0]).2.2.1 (by decide) (by decide) (by decide)
  have h5 := (C9_array_resize_amended
    (⟨[(0, ⟨3, 1⟩, [some 0, some 0, some 0])], 1, 7, 1⟩ : Heap Nat)
    0 5 1 ⟨3, 1⟩ [some 0, some 0, some 0]).2.2.2.1
    (fun b hb => by rw [List.mem_singleton.mp hb]; decide) (by decide)
    (by decide) (by decide) (by decide)
  exact ⟨h3, h5.1, h5.2.1, h5.2.2.1, h5.2.2.2⟩

end ArrayApi
